import Mathlib

set_option linter.dupNamespace false

/-!
# terraform-provider-sodium: sealed-box encryption and the model's defaults

A shallow embedding of `internal/encryption/encryption.go` (`Encrypt`) and of
`internal/provider/encrypt_data_source.go` (`SetDefaults` and `Encrypt` of the model),
together with the library functions they call:

* `encoding/base64`, the encoder and the decoder of `StdEncoding` (`Decode` with its two
  fast loops and `decodeQuantum`);
* `encoding/hex`, `EncodeToString`;
* `golang.org/x/crypto/nacl/box` and `secretbox`, `SealAnonymous` and `OpenAnonymous`, over
  the cryptographic primitives (Curve25519, HSalsa20 and Salsa20, Poly1305, BLAKE2b), which
  are parameters;
* the framework types `types.String` and `types.Bool`.

Go strings and byte slices are lists of bytes; a byte is a `Fin 256`. A function that
returns a value and an `error` returns a pair here, and the state of `crypto/rand.Reader` is
passed in and out. Errors are values that keep their cause; `Error` gives their text.
-/

/-- A Go `byte`. -/
abbrev Byte := Fin 256

/-- The bytes of a Go string constant (ASCII only). -/
def goString (s : String) : List Byte := s.toList.map (fun c => Fin.ofNat c.toNat)

namespace base64

/-- The constant `encodeStd`: the alphabet of `StdEncoding`. -/
def encodeStd : List Byte :=
  goString "ABCDEFGHIJKLMNOPQRSTUVWXYZabcdefghijklmnopqrstuvwxyz0123456789+/"

/-- The constant `StdPadding`, the character `=`. -/
def padChar : Byte := 61

/-- Line feed, skipped by the decoder. -/
def charLF : Byte := 10

/-- Carriage return, skipped by the decoder. -/
def charCR : Byte := 13

/-- The table `enc.encode`: the character of a six-bit value. -/
def encodeTable (v : Nat) : Byte := encodeStd.getD v 0

/-- The table `enc.decodeMap`, as `NewEncoding` fills it: `0xFF` everywhere, then the index
of each character of the alphabet. -/
def decodeMap (c : Byte) : Nat :=
  if encodeStd.indexOf c < 64 then encodeStd.indexOf c else 0xFF

/-- The method `Encoding.EncodeToString` of `StdEncoding` (through `Encode`): three bytes
give four characters; a last block of one or two bytes is padded with `=`. -/
def EncodeToString : List Byte → List Byte
  | [] => []
  | [b0] =>
      let val := b0.val <<< 16
      [encodeTable (val >>> 18 &&& 0x3F), encodeTable (val >>> 12 &&& 0x3F), padChar, padChar]
  | [b0, b1] =>
      let val := b0.val <<< 16 ||| b1.val <<< 8
      [encodeTable (val >>> 18 &&& 0x3F), encodeTable (val >>> 12 &&& 0x3F),
        encodeTable (val >>> 6 &&& 0x3F), padChar]
  | b0 :: b1 :: b2 :: rest =>
      let val := b0.val <<< 16 ||| b1.val <<< 8 ||| b2.val
      encodeTable (val >>> 18 &&& 0x3F) :: encodeTable (val >>> 12 &&& 0x3F) ::
        encodeTable (val >>> 6 &&& 0x3F) :: encodeTable (val &&& 0x3F) :: EncodeToString rest

/-- The type `CorruptInputError`: the offset of the offending input byte. -/
abbrev CorruptInputError := Nat

/-- The method `CorruptInputError.Error`. -/
def CorruptInputError.Error (e : CorruptInputError) : String :=
  "illegal base64 data at input byte " ++ toString e

/-- The loop `for si < len(src) && (src[si] == '\n' || src[si] == '\r') { si++ }`, on the
input that is left and the offset `si`. -/
def skipNewlines : List Byte → Nat → List Byte × Nat
  | [], si => ([], si)
  | c :: rest, si =>
      if c = charLF ∨ c = charCR then skipNewlines rest (si + 1) else (c :: rest, si)

/-- The lines `if si < len(src) { err = CorruptInputError(si) }` after the padding, on what
`skipNewlines` left. -/
def trailingGarbage (r : List Byte × Nat) : Option CorruptInputError :=
  if r.1 ≠ [] then some r.2 else none

/-- How the character loop of `decodeQuantum` ends: by a `return` of `(si, 0, err)`, or by
leaving the loop with `dlen` characters in `dbuf`, the input that is left, and the error set
for trailing garbage. -/
inductive LoopExit where
  | ret (si : Nat) (err : Option CorruptInputError)
  | brk (dlen : Nat) (dbuf : List Nat) (rest : List Byte) (si : Nat)
      (err : Option CorruptInputError)
  deriving DecidableEq, Repr

/-- The loop reported an error, or stopped with the byte `bad` still ahead. -/
def LoopExit.errOrAhead (bad : Byte) : LoopExit → Prop
  | .ret _ e => e ≠ none
  | .brk _ _ r _ e => e ≠ none ∨ bad ∈ r

/-- The loop `for j := 0; j < len(dbuf); j++` of `decodeQuantum`, for `StdEncoding`
(`padChar` is `=`): `srcLen` is `len(src)`, the list is `src[si:]`. -/
def quantumLoop (srcLen : Nat) : List Byte → Nat → Nat → List Nat → LoopExit
  | [], si, j, dbuf =>
      if 4 ≤ j then .brk 4 dbuf [] si none
      else if j = 0 then .ret si none
      else .ret si (some (si - j))
  | c :: rest, si, j, dbuf =>
      if 4 ≤ j then .brk 4 dbuf (c :: rest) si none
      else
        let si1 := si + 1
        let out := decodeMap c
        if out ≠ 0xFF then quantumLoop srcLen rest si1 (j + 1) (dbuf.set j out)
        else if c = charLF ∨ c = charCR then quantumLoop srcLen rest si1 j dbuf
        else if c ≠ padChar then .ret si1 (some (si1 - 1))
        else if j = 0 ∨ j = 1 then .ret si1 (some (si1 - 1))
        else if j = 2 then
          match skipNewlines rest si1 with
          | ([], si2) => .ret si2 (some srcLen)
          | (c2 :: rest2, si2) =>
              if c2 ≠ padChar then .ret si2 (some (si2 - 1))
              else
                let r := skipNewlines rest2 (si2 + 1)
                .brk j dbuf r.1 r.2 (trailingGarbage r)
        else
          let r := skipNewlines rest si1
          .brk j dbuf r.1 r.2 (trailingGarbage r)

/-- The result of `decodeQuantum`: the new offset, the bytes written to `dst` (their number
is the `n` of the source), the error, and the input `src[nsi:]` that is left (given as empty
after a `return` from inside the loop: there it is all read, or the error ends `Decode`). -/
structure Quantum where
  nsi : Nat
  out : List Byte
  err : Option CorruptInputError
  rest : List Byte
  deriving DecidableEq, Repr

/-- The method `decodeQuantum` of `StdEncoding` (not strict): up to four characters become up
to three bytes. -/
def decodeQuantum (srcLen : Nat) (src : List Byte) (si : Nat) : Quantum :=
  match quantumLoop srcLen src si 0 [0, 0, 0, 0] with
  | .ret nsi err => ⟨nsi, [], err, []⟩
  | .brk dlen dbuf rest nsi err =>
      let val := dbuf.getD 0 0 <<< 18 ||| dbuf.getD 1 0 <<< 12 ||| dbuf.getD 2 0 <<< 6 |||
        dbuf.getD 3 0
      let b2 : Byte := Fin.ofNat (val >>> 0)
      let b1 : Byte := Fin.ofNat (val >>> 8)
      let b0 : Byte := Fin.ofNat (val >>> 16)
      ⟨nsi, [b0, b1, b2].take (dlen - 1), err, rest⟩

/-- The last loop of `Decode`, `for si < len(src)`: quantum after quantum until the input is used
up or a quantum fails. The first argument bounds the number of rounds; the length of the
input is enough, since every round consumes a character. -/
def decodeLoop (srcLen : Nat) : Nat → List Byte → Nat → List Byte → List Byte × Option CorruptInputError
  | _, [], _, acc => (acc, none)
  | 0, _ :: _, _, acc => (acc, none)
  | fuel + 1, c :: rest, si, acc =>
      let q := decodeQuantum srcLen (c :: rest) si
      match q.err with
      | some e => (acc ++ q.out, some e)
      | none => decodeLoop srcLen fuel q.rest q.nsi (acc ++ q.out)

/-- The function `assemble32`: four decoded characters packed into the top 24 bits of a
`uint32`, or no result when one of them is the `0xFF` of an invalid character. -/
def assemble32 (n1 n2 n3 n4 : Nat) : Nat × Bool :=
  if n1 ||| n2 ||| n3 ||| n4 = 0xFF then (0, false)
  else (n1 <<< 26 ||| n2 <<< 20 ||| n3 <<< 14 ||| n4 <<< 8, true)

/-- The function `assemble64`: eight decoded characters packed into the top 48 bits of a
`uint64`, or no result when one of them is the `0xFF` of an invalid character. -/
def assemble64 (n1 n2 n3 n4 n5 n6 n7 n8 : Nat) : Nat × Bool :=
  if n1 ||| n2 ||| n3 ||| n4 ||| n5 ||| n6 ||| n7 ||| n8 = 0xFF then (0, false)
  else (n1 <<< 58 ||| n2 <<< 52 ||| n3 <<< 46 ||| n4 <<< 40 ||| n5 <<< 34 ||| n6 <<< 28 |||
    n7 <<< 22 ||| n8 <<< 16, true)

/-- The method `DecodedLen` of `StdEncoding`: the length of the buffer `Decode` writes to. -/
def DecodedLen (n : Nat) : Nat := n / 4 * 3

/-- How one of the two fast loops of `Decode` ends: by the `return n, err` after a failed
quantum (with the bytes `dst[:n]`), or by its condition turning false, with the input that
is left, the offset `si` and the bytes `dst[:n]` written so far. -/
inductive FastExit where
  | returned (out : List Byte) (err : CorruptInputError)
  | left (rest : List Byte) (si : Nat) (out : List Byte)
  deriving DecidableEq, Repr

/-- The first loop of `Decode`, `for len(src)-si >= 8 && len(dst)-n >= 8`: eight valid
characters at once give six bytes (`PutUint64` writes eight, `n` advances by six); otherwise
one `decodeQuantum`. `dstLen` is `len(dst)`, `n` is the length of `out`; the first argument
bounds the number of rounds. -/
def decodeFast64 (srcLen dstLen : Nat) : Nat → List Byte → Nat → List Byte → FastExit
  | fuel + 1, c1 :: c2 :: c3 :: c4 :: c5 :: c6 :: c7 :: c8 :: rest, si, out =>
      if dstLen - out.length ≥ 8 then
        match assemble64 (decodeMap c1) (decodeMap c2) (decodeMap c3) (decodeMap c4)
            (decodeMap c5) (decodeMap c6) (decodeMap c7) (decodeMap c8) with
        | (dn, true) =>
            decodeFast64 srcLen dstLen fuel rest (si + 8)
              (out ++ [Fin.ofNat (dn >>> 56), Fin.ofNat (dn >>> 48), Fin.ofNat (dn >>> 40),
                Fin.ofNat (dn >>> 32), Fin.ofNat (dn >>> 24), Fin.ofNat (dn >>> 16)])
        | (_, false) =>
            let q := decodeQuantum srcLen
              (c1 :: c2 :: c3 :: c4 :: c5 :: c6 :: c7 :: c8 :: rest) si
            match q.err with
            | some e => .returned (out ++ q.out) e
            | none => decodeFast64 srcLen dstLen fuel q.rest q.nsi (out ++ q.out)
      else .left (c1 :: c2 :: c3 :: c4 :: c5 :: c6 :: c7 :: c8 :: rest) si out
  | _, rest, si, out => .left rest si out

/-- The second loop of `Decode`, `for len(src)-si >= 4 && len(dst)-n >= 4`: four valid
characters at once give three bytes (`PutUint32` writes four, `n` advances by three);
otherwise one `decodeQuantum`. -/
def decodeFast32 (srcLen dstLen : Nat) : Nat → List Byte → Nat → List Byte → FastExit
  | fuel + 1, c1 :: c2 :: c3 :: c4 :: rest, si, out =>
      if dstLen - out.length ≥ 4 then
        match assemble32 (decodeMap c1) (decodeMap c2) (decodeMap c3) (decodeMap c4) with
        | (dn, true) =>
            decodeFast32 srcLen dstLen fuel rest (si + 4)
              (out ++ [Fin.ofNat (dn >>> 24), Fin.ofNat (dn >>> 16), Fin.ofNat (dn >>> 8)])
        | (_, false) =>
            let q := decodeQuantum srcLen (c1 :: c2 :: c3 :: c4 :: rest) si
            match q.err with
            | some e => .returned (out ++ q.out) e
            | none => decodeFast32 srcLen dstLen fuel q.rest q.nsi (out ++ q.out)
      else .left (c1 :: c2 :: c3 :: c4 :: rest) si out
  | _, rest, si, out => .left rest si out

/-- The method `Encoding.Decode` of `StdEncoding` on a 64-bit platform: the bytes `dst[:n]`
and the error. The three loops run one after the other; each is given as many rounds as
the input has characters. -/
def Decode (src : List Byte) : List Byte × Option CorruptInputError :=
  if src.length = 0 then ([], none)
  else
    match decodeFast64 src.length (DecodedLen src.length) src.length src 0 [] with
    | .returned out err => (out, some err)
    | .left rest si out =>
        match decodeFast32 src.length (DecodedLen src.length) src.length rest si out with
        | .returned out1 err => (out1, some err)
        | .left rest1 si1 out1 => decodeLoop src.length src.length rest1 si1 out1

/-- The method `Encoding.DecodeString` of `StdEncoding`: the decoded bytes `dbuf[:n]` and the
error of `Decode`. -/
def DecodeString (s : List Byte) : List Byte × Option CorruptInputError :=
  Decode s

end base64

/-- A Go array `[n]byte`. -/
def Bytes (n : Nat) : Type := { l : List Byte // l.length = n }

instance (n : Nat) : DecidableEq (Bytes n) := by unfold Bytes; infer_instance

/-- The zero value of `[n]byte`. -/
def Bytes.zero (n : Nat) : Bytes n := ⟨List.replicate n 0, by simp⟩

/-- The builtin `copy(dst[:], src)` into an array: the first `min n (len src)` bytes of `dst`
are replaced by those of `src`. -/
def Bytes.copy {n : Nat} (dst : Bytes n) (src : List Byte) : Bytes n :=
  ⟨src.take n ++ dst.val.drop (src.take n).length, by
    have h := dst.property
    simp only [List.length_append, List.length_take, List.length_drop]
    omega⟩

/-- The bytewise exclusive or of two arrays. -/
def Bytes.xor {n : Nat} (a b : Bytes n) : Bytes n :=
  ⟨List.zipWith (fun x y => x ^^^ y) a.val b.val, by simp [a.property, b.property]⟩

/-- The assignment `a[i] = b` on an array. -/
def Bytes.set {n : Nat} (a : Bytes n) (i : Nat) (b : Byte) : Bytes n :=
  ⟨a.val.set i b, by simp [a.property]⟩

namespace io

/-- The errors of `io.ReadFull`. -/
inductive Error where
  | EOF
  | ErrUnexpectedEOF
  deriving DecidableEq, Repr

/-- The method `Error` of the two errors. -/
def Error.Error : Error → String
  | .EOF => "EOF"
  | .ErrUnexpectedEOF => "unexpected EOF"

/-- The state of a reader: the bytes it will still deliver. -/
abbrev Reader := List Byte

/-- The function `io.ReadFull(r, buf[:])` for a 32-byte array: the bytes read or the error,
and the reader afterwards. -/
def ReadFull32 (r : Reader) : Except Error (Bytes 32) × Reader :=
  if h : 32 ≤ r.length then (.ok ⟨r.take 32, by simp [h]⟩, r.drop 32)
  else if r = [] then (.error .EOF, [])
  else (.error .ErrUnexpectedEOF, [])

end io

namespace box

/-- The cryptographic primitives under `golang.org/x/crypto/nacl/box`, as parameters:
`curve25519.ScalarBaseMult(dst, scalar)`, `curve25519.ScalarMult(dst, scalar, point)`,
`salsa.HSalsa20(out, in, k, &salsa.Sigma)`, the key stream that `salsa.XORKeyStream` xors
into its input (byte `i` for a counter block and a key), `poly1305.Sum(out, m, key)`, and
the 24-byte BLAKE2b digest that `sealNonce` takes of what is written to the hash. -/
structure Primitives where
  ScalarBaseMult : Bytes 32 → Bytes 32
  ScalarMult : Bytes 32 → Bytes 32 → Bytes 32
  HSalsa20 : Bytes 16 → Bytes 32 → Bytes 32
  Salsa20KeyStream : Bytes 16 → Bytes 32 → Nat → Byte
  Poly1305Sum : List Byte → Bytes 32 → Bytes 16
  Blake2b24 : List Byte → Bytes 24

/-- The constant `AnonymousOverhead`. -/
def AnonymousOverhead : Nat := 48

/-- The constant `secretbox.Overhead`, the size of the Poly1305 tag. -/
def Overhead : Nat := 16

/-- The input xored with a key stream, from stream position `i` on. -/
def xorWith (ks : Nat → Byte) : List Byte → Nat → List Byte
  | [], _ => []
  | b :: rest, i => (b ^^^ ks i) :: xorWith ks rest (i + 1)

/-- The function `salsa.XORKeyStream(out, in, counter, key)`: the value of `out`. -/
def XORKeyStream (P : Primitives) (inp : List Byte) (counter : Bytes 16) (key : Bytes 32) :
    List Byte :=
  xorWith (P.Salsa20KeyStream counter key) inp 0

/-- The function `GenerateKey(rand)`: a private key read from `rand` and its public key. -/
def GenerateKey (P : Primitives) (rand : io.Reader) :
    Except io.Error (Bytes 32 × Bytes 32) × io.Reader :=
  match io.ReadFull32 rand with
  | (.error e, r) => (.error e, r)
  | (.ok priv, r) => (.ok (P.ScalarBaseMult priv, priv), r)

/-- The function `sealNonce(ephemeralPub, peersPub, nonce)`: the value of `nonce`. (Its
error is that of `blake2b.New(24, nil)`, which accepts that size.) -/
def sealNonce (P : Primitives) (ephemeralPub peersPub : Bytes 32) : Bytes 24 :=
  P.Blake2b24 (ephemeralPub.val ++ peersPub.val)

/-- The function `Precompute(sharedKey, peersPublicKey, privateKey)`: the value of
`sharedKey`. -/
def Precompute (P : Primitives) (peersPublicKey privateKey : Bytes 32) : Bytes 32 :=
  P.HSalsa20 (Bytes.zero 16) (P.ScalarMult privateKey peersPublicKey)

/-- The function `secretbox.setup(subKey, counter, nonce, key)`: the values of `subKey` and
`counter`. -/
def setup (P : Primitives) (nonce : Bytes 24) (key : Bytes 32) : Bytes 32 × Bytes 16 :=
  let hNonce : Bytes 16 := (Bytes.zero 16).copy nonce.val
  (P.HSalsa20 hNonce key, (Bytes.zero 16).copy (nonce.val.drop 16))

/-- The function `secretbox.Seal(out, message, nonce, key)`: the tag, then the message
xored with the key stream (its first 32 bytes with the second half of the first block). -/
def secretboxSeal (P : Primitives) (out message : List Byte) (nonce : Bytes 24)
    (key : Bytes 32) : List Byte :=
  let (subKey, counter) := setup P nonce key
  let firstBlock := XORKeyStream P (Bytes.zero 64).val counter subKey
  let poly1305Key : Bytes 32 := (Bytes.zero 32).copy firstBlock
  let firstMessageBlock := if message.length > 32 then message.take 32 else message
  let c1 := List.zipWith (fun k x => k ^^^ x) (firstBlock.drop 32) firstMessageBlock
  let c2 := XORKeyStream P (message.drop firstMessageBlock.length) (counter.set 8 1) subKey
  let ciphertext := c1 ++ c2
  let tag := P.Poly1305Sum ciphertext poly1305Key
  out ++ tag.val ++ ciphertext

/-- The function `Seal(out, message, nonce, peersPublicKey, privateKey)`. -/
def Seal (P : Primitives) (out message : List Byte) (nonce : Bytes 24)
    (peersPublicKey privateKey : Bytes 32) : List Byte :=
  secretboxSeal P out message nonce (Precompute P peersPublicKey privateKey)

/-- The function `SealAnonymous(out, message, recipient, rand)`; a nil `rand` is
`crypto/rand.Reader`, whose state is the `io.Reader` argument. -/
def SealAnonymous (P : Primitives) (out message : List Byte) (recipient : Bytes 32)
    (rand : io.Reader) : Except io.Error (List Byte) × io.Reader :=
  match GenerateKey P rand with
  | (.error e, r) => (.error e, r)
  | (.ok (ephemeralPub, ephemeralPriv), r) =>
      let nonce := sealNonce P ephemeralPub recipient
      (.ok (Seal P (out ++ ephemeralPub.val) message nonce recipient ephemeralPriv), r)

/-- The function `secretbox.Open(out, box, nonce, key)`. -/
def secretboxOpen (P : Primitives) (out box : List Byte) (nonce : Bytes 24)
    (key : Bytes 32) : Option (List Byte) :=
  if box.length < Overhead then none
  else
    let (subKey, counter) := setup P nonce key
    let firstBlock := XORKeyStream P (Bytes.zero 64).val counter subKey
    let poly1305Key : Bytes 32 := (Bytes.zero 32).copy firstBlock
    let tag : Bytes 16 := (Bytes.zero 16).copy box
    if P.Poly1305Sum (box.drop 16) poly1305Key ≠ tag then none
    else
      let body := box.drop Overhead
      let firstMessageBlock := if body.length > 32 then body.take 32 else body
      let m1 := List.zipWith (fun k x => k ^^^ x) (firstBlock.drop 32) firstMessageBlock
      let m2 := XORKeyStream P (body.drop firstMessageBlock.length) (counter.set 8 1) subKey
      some (out ++ m1 ++ m2)

/-- The function `Open(out, box, nonce, peersPublicKey, privateKey)`. -/
def Open (P : Primitives) (out box : List Byte) (nonce : Bytes 24)
    (peersPublicKey privateKey : Bytes 32) : Option (List Byte) :=
  secretboxOpen P out box nonce (Precompute P peersPublicKey privateKey)

/-- The function `OpenAnonymous(out, box, publicKey, privateKey)`, the standard opening of
a sealed box. -/
def OpenAnonymous (P : Primitives) (out box : List Byte) (publicKey privateKey : Bytes 32) :
    Option (List Byte) :=
  if box.length < AnonymousOverhead then none
  else
    let ephemeralPub : Bytes 32 := (Bytes.zero 32).copy (box.take 32)
    let nonce := sealNonce P ephemeralPub publicKey
    Open P out (box.drop 32) nonce ephemeralPub privateKey

/-- The nonce of a sealed box, said from the format and not through `sealNonce`: the
24-byte BLAKE2b digest of the ephemeral public key followed by the public key of the
recipient. -/
def sealedBoxNonce (P : Primitives) (ephemeralPub recipient : Bytes 32) : Bytes 24 :=
  P.Blake2b24 (ephemeralPub.val ++ recipient.val)

/-- The XSalsa20 key of a sealed box, said from the format: HSalsa20 with the first 16 bytes
of the nonce over the shared key, which is HSalsa20 with a zero input over the product of the
ephemeral private key and the public key of the recipient. -/
def sealedBoxSubKey (P : Primitives) (nonce : Bytes 24) (recipient ephemeralPriv : Bytes 32) :
    Bytes 32 :=
  P.HSalsa20 ⟨nonce.val.take 16, by simp [nonce.property]⟩
    (P.HSalsa20 ⟨List.replicate 16 0, by simp⟩ (P.ScalarMult ephemeralPriv recipient))

/-- The Salsa20 counter block of a sealed box, said from the format: the last 8 bytes of the
nonce, then the block number in the first of 8 counter bytes. -/
def sealedBoxCounter (nonce : Bytes 24) (block : Byte) : Bytes 16 :=
  ⟨nonce.val.drop 16 ++ block :: List.replicate 7 0, by simp [nonce.property]⟩

/-- The key stream under a message of `len` bytes, said from the format: bytes 32 to 63 of
block 0 (bytes 0 to 31 are the Poly1305 key), then the stream from block 1 on. -/
def sealedBoxKeyStream (P : Primitives) (nonce : Bytes 24) (subKey : Bytes 32) (len : Nat) :
    List Byte :=
  (List.range' 32 32).map (P.Salsa20KeyStream (sealedBoxCounter nonce 0) subKey) ++
    (List.range' 0 (len - 32)).map (P.Salsa20KeyStream (sealedBoxCounter nonce 1) subKey)

/-- The ciphertext of a sealed box, said from the format: the message xored byte by byte
with the key stream. -/
def sealedBoxCiphertext (P : Primitives) (recipient ephemeralPriv : Bytes 32)
    (message : List Byte) : List Byte :=
  List.zipWith (fun b k => b ^^^ k) message
    (sealedBoxKeyStream P (sealedBoxNonce P (P.ScalarBaseMult ephemeralPriv) recipient)
      (sealedBoxSubKey P (sealedBoxNonce P (P.ScalarBaseMult ephemeralPriv) recipient)
        recipient ephemeralPriv)
      message.length)

/-- The tag of a sealed box, said from the format: Poly1305 over the ciphertext, keyed with
the first 32 bytes of the key stream of block 0. -/
def sealedBoxTag (P : Primitives) (recipient ephemeralPriv : Bytes 32)
    (message : List Byte) : Bytes 16 :=
  P.Poly1305Sum (sealedBoxCiphertext P recipient ephemeralPriv message)
    ⟨(List.range' 0 32).map
      (P.Salsa20KeyStream
        (sealedBoxCounter (sealedBoxNonce P (P.ScalarBaseMult ephemeralPriv) recipient) 0)
        (sealedBoxSubKey P (sealedBoxNonce P (P.ScalarBaseMult ephemeralPriv) recipient)
          recipient ephemeralPriv)), by simp⟩

/-- The constant `curve25519.Basepoint`: the byte 9, then zeros. -/
def basePoint : Bytes 32 := ⟨9 :: List.replicate 31 0, by simp⟩

/-- Stand-ins for the primitives, to run the definitions on concrete inputs. The scalar
multiplication is a bytewise exclusive or, so that the two sides of an exchange agree; the
key stream, the tag and the digest are simple functions of all their arguments. -/
def testPrimitives : Primitives where
  ScalarBaseMult := fun scalar => scalar.xor basePoint
  ScalarMult := fun scalar point => scalar.xor point
  HSalsa20 := fun inp k => k.xor ((Bytes.zero 32).copy (inp.val ++ inp.val))
  Salsa20KeyStream := fun counter key i =>
    key.val.getD (i % 32) 0 + counter.val.getD (i % 16) 0 + Fin.ofNat i
  Poly1305Sum := fun m key =>
    (Bytes.zero 16).copy (key.val.map (fun k => k + m.foldl (fun h b => h + h + b + 1) 0))
  Blake2b24 := fun l => (Bytes.zero 24).copy (l.map (fun b => b + 1))

end box

namespace encryption

/-- The errors `Encrypt` builds with `fmt.Errorf`, each around its cause. -/
inductive Error where
  | decode (cause : base64.CorruptInputError)
  | invalidKey
  | seal (cause : io.Error)
  deriving DecidableEq, Repr

/-- The text of the error. -/
def Error.Error : Error → String
  | .decode cause => "failed to decode public key: " ++ base64.CorruptInputError.Error cause
  | .invalidKey => "invalid public key: length under 32"
  | .seal cause => "failed to encrypt body: " ++ cause.Error

/-- The type `encryptResult`. -/
structure encryptResult where
  Err : Option Error
  Encoded : List Byte
  Raw : List Byte
  deriving DecidableEq, Repr

/-- The function `Encrypt(pk_b64, secret)`, with the state of `crypto/rand.Reader` before
and after the call. -/
def Encrypt (P : box.Primitives) (rand : io.Reader) (pk_b64 secret : List Byte) :
    encryptResult × io.Reader :=
  let res : encryptResult := ⟨none, [], []⟩
  match base64.DecodeString pk_b64 with
  | (_, some err) => ({ res with Err := some (.decode err) }, rand)
  | (pk, none) =>
      if pk.length < 32 then ({ res with Err := some .invalidKey }, rand)
      else
        let peersPubKey : Bytes 32 := (Bytes.zero 32).copy (pk.take 32)
        match box.SealAnonymous P [] secret peersPubKey rand with
        | (.error err, rand1) => ({ res with Err := some (.seal err) }, rand1)
        | (.ok eBody, rand1) =>
            let encoded := base64.EncodeToString eBody
            ({ res with Raw := eBody, Encoded := encoded }, rand1)

end encryption

namespace hex

/-- The constant `hextable`. -/
def hextable : List Byte := goString "0123456789abcdef"

/-- The function `hex.EncodeToString`: two lower-case digits for each byte. -/
def EncodeToString : List Byte → List Byte
  | [] => []
  | v :: rest =>
      hextable.getD (v.val >>> 4) 0 :: hextable.getD (v.val &&& 0x0F) 0 :: EncodeToString rest

end hex

/-- A Go `bool`. -/
abbrev GoBool := Bool

/-- The framework type `types.String`: null, unknown, or a known Go string. -/
inductive types.String where
  | null
  | unknown
  | known (value : List Byte)
  deriving DecidableEq, Repr

/-- The framework type `types.Bool`: null, unknown, or a known boolean. -/
inductive types.Bool where
  | null
  | unknown
  | known (value : GoBool)
  deriving DecidableEq, Repr

/-- The method `IsNull`. -/
def types.String.IsNull : types.String → GoBool
  | .null => true
  | _ => false

/-- The method `IsUnknown`. -/
def types.String.IsUnknown : types.String → GoBool
  | .unknown => true
  | _ => false

/-- The method `ValueString`: the known value, or the empty string when null or unknown. -/
def types.String.ValueString : types.String → List Byte
  | .known value => value
  | _ => []

/-- The function `types.StringValue`. -/
def types.StringValue (value : List Byte) : types.String := .known value

/-- The method `IsNull`. -/
def types.Bool.IsNull : types.Bool → GoBool
  | .null => true
  | _ => false

/-- The method `IsUnknown`. -/
def types.Bool.IsUnknown : types.Bool → GoBool
  | .unknown => true
  | _ => false

/-- The method `ValueBool`: the known value, or false when null or unknown. -/
def types.Bool.ValueBool : types.Bool → GoBool
  | .known value => value
  | _ => false

/-- The function `types.BoolValue`. -/
def types.BoolValue (value : GoBool) : types.Bool := .known value

namespace provider

/-- The type `EncryptDataSourceModel` (also `EncryptResourceModel`). -/
structure EncryptDataSourceModel where
  Id : types.String
  PublicKeyBase64 : types.String
  Value : types.String
  ValueBase64 : types.String
  EncryptedBase64 : types.String
  Encrypted : types.String
  Base64Encode : types.Bool
  deriving DecidableEq, Repr

/-- The errors the two methods of the model build with `fmt.Errorf`. -/
inductive Error where
  | decodeValueBase64 (cause : base64.CorruptInputError)
  | encrypt (cause : encryption.Error)
  deriving DecidableEq, Repr

/-- The text of the error. -/
def Error.Error : Error → String
  | .decodeValueBase64 cause =>
      "unable to decode `value_base64`, got error: " ++ base64.CorruptInputError.Error cause
  | .encrypt cause => "failed to encrypt the provided value, got error: " ++ cause.Error

/-- The method `SetDefaults`: the model afterwards and the error returned. (The two
`tflog.Warn` lines only log.) -/
def EncryptDataSourceModel.SetDefaults (d : EncryptDataSourceModel) :
    EncryptDataSourceModel × Option Error :=
  let r : EncryptDataSourceModel × Option Error :=
    if d.Value.IsNull || d.Value.IsUnknown then
      let value_base64 := d.ValueBase64.ValueString
      match base64.DecodeString value_base64 with
      | (_, some e) => (d, some (.decodeValueBase64 e))
      | (value_bytes, none) =>
          let value := value_bytes
          ({ d with Value := types.StringValue value }, none)
    else
      let value := d.Value.ValueString
      let value_base64 := base64.EncodeToString value
      ({ d with ValueBase64 := types.StringValue value_base64 }, none)
  match r with
  | (d1, some err) => (d1, some err)
  | (d1, none) =>
      if d1.Base64Encode.IsNull || d1.Base64Encode.IsUnknown then
        ({ d1 with Base64Encode := types.BoolValue false }, none)
      else (d1, none)

/-- The method `Encrypt` of the model: the model afterwards, the error returned, and the
state of `crypto/rand.Reader` after the call. `Sum256` is `crypto/sha256` over what is
written to the hash. -/
def EncryptDataSourceModel.Encrypt (P : box.Primitives) (Sum256 : List Byte → Bytes 32)
    (rand : io.Reader) (d : EncryptDataSourceModel) :
    (EncryptDataSourceModel × Option Error) × io.Reader :=
  let base64_encode := d.Base64Encode.ValueBool
  let secret := if base64_encode then d.ValueBase64.ValueString else d.Value.ValueString
  let pub_key_base64 := d.PublicKeyBase64.ValueString
  let (res, rand1) := encryption.Encrypt P rand pub_key_base64 secret
  match res.Err with
  | some err => ((d, some (.encrypt err)), rand1)
  | none =>
      let id := hex.EncodeToString (Sum256 (pub_key_base64 ++ goString "." ++ secret)).val
      (({ d with
          EncryptedBase64 := types.StringValue res.Encoded
          Encrypted := types.StringValue res.Raw
          Id := types.StringValue id }, none), rand1)

end provider

namespace base64

theorem decodeMap_encodeTable : ∀ s, s < 64 → decodeMap (encodeTable s) = s := by decide

theorem decodeMap_padChar : decodeMap padChar = 0xFF := by decide

theorem and63 (n : Nat) : n &&& 0x3F = n % 64 := by
  have h : (0x3F : Nat) = 2 ^ 6 - 1 := by norm_num
  rw [h, Nat.and_pow_two_sub_one_eq_mod]

theorem shl_or (a b k : Nat) (hb : b < 2 ^ k) : a <<< k ||| b = a * 2 ^ k + b := by
  rw [Nat.shiftLeft_eq, Nat.mul_comm, ← Nat.mul_add_lt_is_or hb]

theorem val3 (b0 b1 b2 : Nat) (h1 : b1 < 256) (h2 : b2 < 256) :
    b0 <<< 16 ||| b1 <<< 8 ||| b2 = b0 * 65536 + b1 * 256 + b2 := by
  rw [Nat.or_assoc, shl_or b1 b2 8 (by omega), shl_or b0 _ 16 (by omega)]
  omega

theorem val4 (s0 s1 s2 s3 : Nat) (h1 : s1 < 64) (h2 : s2 < 64) (h3 : s3 < 64) :
    s0 <<< 18 ||| s1 <<< 12 ||| s2 <<< 6 ||| s3 = s0 * 262144 + s1 * 4096 + s2 * 64 + s3 := by
  rw [Nat.or_assoc, Nat.or_assoc, shl_or s2 s3 6 (by omega),
    shl_or s1 _ 12 (by omega), shl_or s0 _ 18 (by omega)]
  omega


theorem quantumLoop_full (n : Nat) (rest : List Byte) (si : Nat) (dbuf : List Nat) :
    quantumLoop n rest si 4 dbuf = .brk 4 dbuf rest si none := by
  cases rest <;> simp [quantumLoop]

theorem quantumLoop_valid (n : Nat) (c : Byte) (rest : List Byte) (si j : Nat)
    (dbuf : List Nat) (hc : decodeMap c ≠ 0xFF) (hj : j < 4) :
    quantumLoop n (c :: rest) si j dbuf =
      quantumLoop n rest (si + 1) (j + 1) (dbuf.set j (decodeMap c)) := by
  have hj4 : ¬ 4 ≤ j := by omega
  simp only [quantumLoop, hj4, if_false, ne_eq, hc, not_false_eq_true, if_true]

theorem quantumLoop_enc (n : Nat) (s : Nat) (hs : s < 64) (rest : List Byte) (si j : Nat)
    (dbuf : List Nat) (hj : j < 4) :
    quantumLoop n (encodeTable s :: rest) si j dbuf =
      quantumLoop n rest (si + 1) (j + 1) (dbuf.set j s) := by
  have e := decodeMap_encodeTable s hs
  rw [quantumLoop_valid n _ rest si j dbuf (by rw [e]; omega) hj, e]

theorem decodeQuantum_four (n : Nat) (s0 s1 s2 s3 : Nat) (h0 : s0 < 64) (h1 : s1 < 64)
    (h2 : s2 < 64) (h3 : s3 < 64) (tail : List Byte) (si : Nat) :
    decodeQuantum n (encodeTable s0 :: encodeTable s1 :: encodeTable s2 :: encodeTable s3 :: tail)
        si =
      ⟨si + 4, [Fin.ofNat ((s0 * 262144 + s1 * 4096 + s2 * 64 + s3) / 65536),
        Fin.ofNat ((s0 * 262144 + s1 * 4096 + s2 * 64 + s3) / 256),
        Fin.ofNat (s0 * 262144 + s1 * 4096 + s2 * 64 + s3)], none, tail⟩ := by
  unfold decodeQuantum
  rw [quantumLoop_enc n s0 h0 _ _ _ _ (by omega), quantumLoop_enc n s1 h1 _ _ _ _ (by omega),
    quantumLoop_enc n s2 h2 _ _ _ _ (by omega), quantumLoop_enc n s3 h3 _ _ _ _ (by omega),
    quantumLoop_full]
  simp [val4 s0 s1 s2 s3 h1 h2 h3, Nat.shiftRight_eq_div_pow]


theorem decodeQuantum_pad2 (n : Nat) (s0 s1 : Nat) (h0 : s0 < 64) (h1 : s1 < 64) (si : Nat) :
    decodeQuantum n [encodeTable s0, encodeTable s1, padChar, padChar] si =
      ⟨si + 4, [Fin.ofNat ((s0 * 262144 + s1 * 4096) / 65536)], none, []⟩ := by
  unfold decodeQuantum
  rw [quantumLoop_enc n s0 h0 _ _ _ _ (by omega), quantumLoop_enc n s1 h1 _ _ _ _ (by omega)]
  have hp : decodeMap padChar = 0xFF := decodeMap_padChar
  have hlf : padChar ≠ charLF := by decide
  have hcr : padChar ≠ charCR := by decide
  have hv : s0 <<< 18 ||| s1 <<< 12 = s0 * 262144 + s1 * 4096 := by
    have e : s1 <<< 12 = s1 * 4096 := by rw [Nat.shiftLeft_eq]
    rw [e, shl_or s0 _ 18 (by omega)]; omega
  simp [quantumLoop, skipNewlines, trailingGarbage, hp, hlf, hcr, hv, Nat.shiftRight_eq_div_pow]

theorem decodeQuantum_pad1 (n : Nat) (s0 s1 s2 : Nat) (h0 : s0 < 64) (h1 : s1 < 64)
    (h2 : s2 < 64) (si : Nat) :
    decodeQuantum n [encodeTable s0, encodeTable s1, encodeTable s2, padChar] si =
      ⟨si + 4, [Fin.ofNat ((s0 * 262144 + s1 * 4096 + s2 * 64) / 65536),
        Fin.ofNat ((s0 * 262144 + s1 * 4096 + s2 * 64) / 256)], none, []⟩ := by
  unfold decodeQuantum
  rw [quantumLoop_enc n s0 h0 _ _ _ _ (by omega), quantumLoop_enc n s1 h1 _ _ _ _ (by omega),
    quantumLoop_enc n s2 h2 _ _ _ _ (by omega)]
  have hp : decodeMap padChar = 0xFF := decodeMap_padChar
  have hlf : padChar ≠ charLF := by decide
  have hcr : padChar ≠ charCR := by decide
  have hv : s0 <<< 18 ||| s1 <<< 12 ||| s2 <<< 6 = s0 * 262144 + s1 * 4096 + s2 * 64 := by
    have e : s2 <<< 6 = s2 * 64 := by rw [Nat.shiftLeft_eq]
    rw [Nat.or_assoc, e, shl_or s1 _ 12 (by omega), shl_or s0 _ 18 (by omega)]; omega
  simp [quantumLoop, skipNewlines, trailingGarbage, hp, hlf, hcr, hv, Nat.shiftRight_eq_div_pow]

theorem byte_ofNat (b : Byte) (a : Nat) (h : a % 256 = b.val) : (Fin.ofNat a : Byte) = b := by
  apply Fin.ext
  simpa [Fin.ofNat] using h

theorem decodeLoop_encode (n : Nat) : ∀ (bs : List Byte) (fuel si : Nat) (acc : List Byte),
    (EncodeToString bs).length ≤ fuel →
    decodeLoop n fuel (EncodeToString bs) si acc = (acc ++ bs, none) := by
  intro bs
  induction bs using EncodeToString.induct with
  | case1 => intro fuel si acc _; cases fuel <;> simp [EncodeToString, decodeLoop]
  | case2 b0 =>
      intro fuel si acc hf
      simp only [EncodeToString, List.length_cons, List.length_nil] at hf
      obtain ⟨f, rfl⟩ : ∃ f, fuel = f + 1 := ⟨fuel - 1, by omega⟩
      have hb := b0.isLt
      simp only [EncodeToString, decodeLoop, and63, Nat.shiftRight_eq_div_pow, Nat.shiftLeft_eq]
      rw [decodeQuantum_pad2 n _ _ (by omega) (by omega)]
      simp only [decodeLoop]
      congr 2
      simp only [List.cons.injEq, and_true]
      apply byte_ofNat
      omega
  | case3 b0 b1 =>
      intro fuel si acc hf
      simp only [EncodeToString, List.length_cons, List.length_nil] at hf
      obtain ⟨f, rfl⟩ : ∃ f, fuel = f + 1 := ⟨fuel - 1, by omega⟩
      have hb := b0.isLt
      have hb1 := b1.isLt
      have hv : b0.val <<< 16 ||| b1.val <<< 8 = b0.val * 65536 + b1.val * 256 := by
        have e : b1.val <<< 8 = b1.val * 256 := by rw [Nat.shiftLeft_eq]
        rw [e, shl_or b0.val _ 16 (by omega)]; omega
      simp only [EncodeToString, decodeLoop, hv, and63, Nat.shiftRight_eq_div_pow]
      rw [decodeQuantum_pad1 n _ _ _ (by omega) (by omega) (by omega)]
      simp only [decodeLoop]
      congr 2
      simp only [List.cons.injEq, and_true]
      constructor <;> apply byte_ofNat <;> omega
  | case4 b0 b1 b2 rest ih =>
      intro fuel si acc hf
      simp only [EncodeToString, List.length_cons] at hf
      obtain ⟨f, rfl⟩ : ∃ f, fuel = f + 1 := ⟨fuel - 1, by omega⟩
      have hb := b0.isLt
      have hb1 := b1.isLt
      have hb2 := b2.isLt
      simp only [EncodeToString, decodeLoop, val3 b0.val b1.val b2.val hb1 hb2, and63,
        Nat.shiftRight_eq_div_pow]
      rw [decodeQuantum_four n _ _ _ _ (by omega) (by omega) (by omega) (by omega)]
      simp only []
      rw [ih f _ _ (by omega)]
      congr 1
      simp only [List.append_assoc, List.append_cancel_left_eq, List.cons_append, List.nil_append,
        List.cons.injEq, and_true]
      refine ⟨?_, ?_, ?_⟩ <;> apply byte_ofNat <;> omega

theorem skipNewlines_length (rest : List Byte) (si : Nat) :
    (skipNewlines rest si).1.length ≤ rest.length := by
  induction rest generalizing si with
  | nil => simp [skipNewlines]
  | cons c rest ih =>
      simp only [skipNewlines]
      split
      · exact Nat.le_succ_of_le (ih _)
      · exact le_refl _

theorem quantumLoop_rest_le (n : Nat) (rest : List Byte) : ∀ (si j : Nat) (dbuf : List Nat)
    (dlen : Nat) (db : List Nat) (r : List Byte) (s : Nat) (e : Option CorruptInputError),
    quantumLoop n rest si j dbuf = .brk dlen db r s e → r.length ≤ rest.length := by
  induction rest with
  | nil =>
      intro si j dbuf dlen db r s e h
      simp only [quantumLoop] at h
      split_ifs at h
      simp only [LoopExit.brk.injEq] at h
      simp [← h.2.2.1]
  | cons c rest ih =>
      intro si j dbuf dlen db r s e h
      simp only [quantumLoop] at h
      have h1 := skipNewlines_length rest (si + 1)
      split_ifs at h
      · simp only [LoopExit.brk.injEq] at h
        simp [← h.2.2.1]
      · exact Nat.le_succ_of_le (ih _ _ _ _ _ _ _ _ h)
      · exact Nat.le_succ_of_le (ih _ _ _ _ _ _ _ _ h)
      · split at h
        · cases h
        · rename_i c2 rest2 si2 hs
          have h2 := skipNewlines_length rest2 (si2 + 1)
          rw [hs] at h1
          simp only [List.length_cons] at h1 ⊢
          split_ifs at h
          simp only [LoopExit.brk.injEq] at h
          rw [← h.2.2.1]
          omega
      all_goals
        simp only [LoopExit.brk.injEq] at h
        simp only [List.length_cons]
        rw [← h.2.2.1]
        omega

theorem quantumLoop_cons_rest_le (n : Nat) (c : Byte) (rest : List Byte) (si j : Nat)
    (dbuf : List Nat) (hj : j < 4) (dlen : Nat) (db : List Nat) (r : List Byte) (s : Nat)
    (e : Option CorruptInputError)
    (h : quantumLoop n (c :: rest) si j dbuf = .brk dlen db r s e) : r.length ≤ rest.length := by
  simp only [quantumLoop] at h
  have h1 := skipNewlines_length rest (si + 1)
  split_ifs at h
  · omega
  · exact quantumLoop_rest_le n rest _ _ _ _ _ _ _ _ h
  · exact quantumLoop_rest_le n rest _ _ _ _ _ _ _ _ h
  · split at h
    · cases h
    · rename_i c2 rest2 si2 hs
      have h2 := skipNewlines_length rest2 (si2 + 1)
      rw [hs] at h1
      simp only [List.length_cons] at h1
      split_ifs at h
      simp only [LoopExit.brk.injEq] at h
      rw [← h.2.2.1]
      omega
  all_goals
    simp only [LoopExit.brk.injEq] at h
    rw [← h.2.2.1]
    omega

theorem decodeQuantum_rest_le (n : Nat) (c : Byte) (rest : List Byte) (si : Nat) :
    (decodeQuantum n (c :: rest) si).rest.length ≤ rest.length := by
  unfold decodeQuantum
  split
  · simp
  · rename_i dlen db r s e h
    exact quantumLoop_cons_rest_le n c rest si 0 _ (by omega) _ _ _ _ _ h

/-- More rounds than the input has characters change nothing: the bound of `decodeLoop` is
never what ends it. -/
theorem decodeLoop_fuel (n : Nat) : ∀ (f1 f2 : Nat) (rest : List Byte) (si : Nat)
    (acc : List Byte), rest.length ≤ f1 → rest.length ≤ f2 →
    decodeLoop n f1 rest si acc = decodeLoop n f2 rest si acc := by
  intro f1
  induction f1 with
  | zero =>
      intro f2 rest si acc h1 _
      have : rest = [] := List.length_eq_zero.mp (by omega)
      subst this
      cases f2 <;> simp [decodeLoop]
  | succ k ih =>
      intro f2 rest si acc h1 h2
      cases rest with
      | nil => cases f2 <;> simp [decodeLoop]
      | cons c rest =>
          simp only [List.length_cons] at h1 h2
          obtain ⟨m, rfl⟩ : ∃ m, f2 = m + 1 := ⟨f2 - 1, by omega⟩
          simp only [decodeLoop]
          have hq := decodeQuantum_rest_le n c rest si
          split
          · rfl
          · exact ih m _ _ _ (by omega) (by omega)

theorem skipNewlines_mem (bad : Byte) (hlf : bad ≠ charLF) (hcr : bad ≠ charCR)
    (rest : List Byte) (si : Nat) (h : bad ∈ rest) : bad ∈ (skipNewlines rest si).1 := by
  induction rest generalizing si with
  | nil => simp at h
  | cons c rest ih =>
      simp only [skipNewlines]
      split
      · rename_i hc
        rcases List.mem_cons.mp h with rfl | h'
        · rcases hc with hc | hc
          · exact absurd hc hlf
          · exact absurd hc hcr
        · exact ih _ h'
      · exact h

/-- What the character loop does when a byte that is no character of the alphabet, no
padding and no line break lies ahead: it reports an error, or stops before that byte. -/
theorem quantumLoop_bad (n : Nat) (bad : Byte) (hmap : decodeMap bad = 0xFF)
    (hlf : bad ≠ charLF) (hcr : bad ≠ charCR) (hpad : bad ≠ padChar) (rest : List Byte) :
    ∀ (si j : Nat) (dbuf : List Nat), bad ∈ rest →
      (quantumLoop n rest si j dbuf).errOrAhead bad := by
  induction rest with
  | nil => intro si j dbuf h; simp at h
  | cons c rest ih =>
      intro si j dbuf h
      simp only [quantumLoop]
      split_ifs with h4 hv hnl hp hj01 hj2
      · exact Or.inr h
      · have hc : bad ≠ c := fun e => hv (e ▸ hmap)
        exact ih _ _ _ ((List.mem_cons.mp h).resolve_left hc)
      · have hc : bad ≠ c := by
          rintro rfl
          rcases hnl with e | e
          · exact hlf e
          · exact hcr e
        exact ih _ _ _ ((List.mem_cons.mp h).resolve_left hc)
      · simp [LoopExit.errOrAhead]
      · simp [LoopExit.errOrAhead]
      · have hc : bad ≠ c := by
          rintro rfl
          exact hpad (not_not.mp hp)
        have hr : bad ∈ rest := (List.mem_cons.mp h).resolve_left hc
        have hs := skipNewlines_mem bad hlf hcr rest (si + 1) hr
        rcases hsk : skipNewlines rest (si + 1) with ⟨_ | ⟨c2, rest2⟩, si2⟩
        · rw [hsk] at hs
          simp at hs
        · rw [hsk] at hs
          simp only []
          split_ifs with hc2
          · simp [LoopExit.errOrAhead]
          · have hc2b : bad ≠ c2 := by
              rintro rfl
              exact hpad (not_not.mp hc2)
            have hr2 : bad ∈ rest2 := (List.mem_cons.mp hs).resolve_left hc2b
            have hs3 := skipNewlines_mem bad hlf hcr rest2 (si2 + 1) hr2
            have hne : (skipNewlines rest2 (si2 + 1)).1 ≠ [] := List.ne_nil_of_mem hs3
            left
            simp [trailingGarbage, hne]
      · have hc : bad ≠ c := by
          rintro rfl
          exact hpad (not_not.mp hp)
        have hr : bad ∈ rest := (List.mem_cons.mp h).resolve_left hc
        have hs := skipNewlines_mem bad hlf hcr rest (si + 1) hr
        have hne : (skipNewlines rest (si + 1)).1 ≠ [] := List.ne_nil_of_mem hs
        left
        simp [trailingGarbage, hne]

theorem decodeQuantum_bad (n : Nat) (bad : Byte) (hmap : decodeMap bad = 0xFF)
    (hlf : bad ≠ charLF) (hcr : bad ≠ charCR) (hpad : bad ≠ padChar) (src : List Byte)
    (si : Nat) (h : bad ∈ src) :
    (decodeQuantum n src si).err ≠ none ∨ bad ∈ (decodeQuantum n src si).rest := by
  have hq := quantumLoop_bad n bad hmap hlf hcr hpad src si 0 [0, 0, 0, 0] h
  unfold decodeQuantum
  split
  · rename_i nsi err hl
    rw [hl] at hq
    exact Or.inl hq
  · rename_i dlen db r s e hl
    rw [hl] at hq
    exact hq

theorem decodeLoop_bad (n : Nat) (bad : Byte) (hmap : decodeMap bad = 0xFF)
    (hlf : bad ≠ charLF) (hcr : bad ≠ charCR) (hpad : bad ≠ padChar) :
    ∀ (fuel : Nat) (rest : List Byte) (si : Nat) (acc : List Byte), rest.length ≤ fuel →
      bad ∈ rest → (decodeLoop n fuel rest si acc).2 ≠ none := by
  intro fuel
  induction fuel with
  | zero =>
      intro rest si acc h1 hb
      have : rest = [] := List.length_eq_zero.mp (by omega)
      subst this
      simp at hb
  | succ k ih =>
      intro rest si acc h1 hb
      cases rest with
      | nil => simp at hb
      | cons c rest =>
          simp only [List.length_cons] at h1
          simp only [decodeLoop]
          have hq := decodeQuantum_rest_le n c rest si
          have hbq := decodeQuantum_bad n bad hmap hlf hcr hpad (c :: rest) si hb
          split
          · simp
          · rename_i hnone
            rw [hnone] at hbq
            exact ih _ _ _ (by omega) (hbq.resolve_left (by simp))

set_option maxRecDepth 100000 in
theorem decodeMap_not_mem : ∀ c : Byte, c ∉ encodeStd → decodeMap c = 0xFF := by decide

theorem decodeMap_range (c : Byte) : decodeMap c < 64 ∨ decodeMap c = 0xFF := by
  unfold decodeMap
  split_ifs with h
  · exact Or.inl h
  · exact Or.inr rfl

set_option maxRecDepth 100000 in
theorem or_ff : ∀ b, b < 256 → 0xFF ||| b = 0xFF := by decide

theorem or_range (a b : Nat) (ha : a < 64 ∨ a = 0xFF) (hb : b < 64 ∨ b = 0xFF) :
    (a ||| b < 64 ∧ a < 64 ∧ b < 64) ∨ (a ||| b = 0xFF ∧ (a = 0xFF ∨ b = 0xFF)) := by
  rcases ha with ha | ha
  · rcases hb with hb | hb
    · exact Or.inl ⟨Nat.or_lt_two_pow (n := 6) ha hb, ha, hb⟩
    · right
      subst hb
      rw [Nat.or_comm]
      exact ⟨or_ff a (by omega), Or.inr rfl⟩
  · right
    subst ha
    refine ⟨or_ff b ?_, Or.inl rfl⟩
    rcases hb with hb | hb <;> omega

theorem or_range_iff (a b : Nat) (ha : a < 64 ∨ a = 0xFF) (hb : b < 64 ∨ b = 0xFF) :
    (a ||| b < 64 ∨ a ||| b = 0xFF) ∧ (a ||| b = 0xFF ↔ a = 0xFF ∨ b = 0xFF) := by
  rcases or_range a b ha hb with ⟨h, h1, h2⟩ | ⟨h, h1⟩
  · refine ⟨Or.inl h, ⟨fun e => by omega, fun e => by omega⟩⟩
  · exact ⟨Or.inr h, ⟨fun _ => h1, fun _ => h⟩⟩

theorem decodeQuantum_valid4 (n : Nat) (c1 c2 c3 c4 : Byte) (h1 : decodeMap c1 ≠ 0xFF)
    (h2 : decodeMap c2 ≠ 0xFF) (h3 : decodeMap c3 ≠ 0xFF) (h4 : decodeMap c4 ≠ 0xFF)
    (tail : List Byte) (si : Nat) :
    decodeQuantum n (c1 :: c2 :: c3 :: c4 :: tail) si =
      ⟨si + 4,
        [Fin.ofNat ((decodeMap c1 * 262144 + decodeMap c2 * 4096 + decodeMap c3 * 64 +
            decodeMap c4) / 65536),
          Fin.ofNat ((decodeMap c1 * 262144 + decodeMap c2 * 4096 + decodeMap c3 * 64 +
            decodeMap c4) / 256),
          Fin.ofNat (decodeMap c1 * 262144 + decodeMap c2 * 4096 + decodeMap c3 * 64 +
            decodeMap c4)], none, tail⟩ := by
  have r2 := (decodeMap_range c2).resolve_right h2
  have r3 := (decodeMap_range c3).resolve_right h3
  have r4 := (decodeMap_range c4).resolve_right h4
  unfold decodeQuantum
  rw [quantumLoop_valid n c1 _ _ _ _ h1 (by omega), quantumLoop_valid n c2 _ _ _ _ h2 (by omega),
    quantumLoop_valid n c3 _ _ _ _ h3 (by omega), quantumLoop_valid n c4 _ _ _ _ h4 (by omega),
    quantumLoop_full]
  simp [val4 _ _ _ _ r2 r3 r4, Nat.shiftRight_eq_div_pow]

theorem assemble32_valid (n1 n2 n3 n4 : Nat) (h1 : n1 < 64) (h2 : n2 < 64) (h3 : n3 < 64)
    (h4 : n4 < 64) :
    assemble32 n1 n2 n3 n4 = ((n1 * 262144 + n2 * 4096 + n3 * 64 + n4) * 256, true) := by
  have hne : n1 ||| n2 ||| n3 ||| n4 ≠ 0xFF := by
    have a := Nat.or_lt_two_pow (n := 6) h1 h2
    have b := Nat.or_lt_two_pow (n := 6) a h3
    have c := Nat.or_lt_two_pow (n := 6) b h4
    omega
  have e4 : n4 <<< 8 = n4 * 256 := by rw [Nat.shiftLeft_eq]
  have e3 : n3 <<< 14 = n3 * 16384 := by rw [Nat.shiftLeft_eq]
  have e2 : n2 <<< 20 = n2 * 1048576 := by rw [Nat.shiftLeft_eq]
  have hv : n1 <<< 26 ||| n2 <<< 20 ||| n3 <<< 14 ||| n4 <<< 8 =
      (n1 * 262144 + n2 * 4096 + n3 * 64 + n4) * 256 := by
    rw [Nat.or_assoc, Nat.or_assoc, e4, e3, e2]
    have k3 : n3 * 16384 ||| n4 * 256 = n3 * 16384 + n4 * 256 := by
      have := shl_or n3 (n4 * 256) 14 (by omega)
      rw [Nat.shiftLeft_eq] at this
      exact this
    have k2 : n2 * 1048576 ||| (n3 * 16384 + n4 * 256) = n2 * 1048576 + (n3 * 16384 + n4 * 256) := by
      have := shl_or n2 (n3 * 16384 + n4 * 256) 20 (by omega)
      rw [Nat.shiftLeft_eq] at this
      exact this
    rw [k3, k2, shl_or n1 _ 26 (by omega)]
    omega
  simp only [assemble32, if_neg hne, hv]

theorem assemble32_invalid (n1 n2 n3 n4 : Nat) (h1 : n1 < 64 ∨ n1 = 0xFF)
    (h2 : n2 < 64 ∨ n2 = 0xFF) (h3 : n3 < 64 ∨ n3 = 0xFF) (h4 : n4 < 64 ∨ n4 = 0xFF)
    (h : n1 = 0xFF ∨ n2 = 0xFF ∨ n3 = 0xFF ∨ n4 = 0xFF) :
    assemble32 n1 n2 n3 n4 = (0, false) := by
  have a := or_range_iff n1 n2 h1 h2
  have b := or_range_iff _ n3 a.1 h3
  have c := or_range_iff _ n4 b.1 h4
  have he : n1 ||| n2 ||| n3 ||| n4 = 0xFF := by
    rcases h with h | h | h | h
    · exact c.2.mpr (Or.inl (b.2.mpr (Or.inl (a.2.mpr (Or.inl h)))))
    · exact c.2.mpr (Or.inl (b.2.mpr (Or.inl (a.2.mpr (Or.inr h)))))
    · exact c.2.mpr (Or.inl (b.2.mpr (Or.inr h)))
    · exact c.2.mpr (Or.inr h)
  simp only [assemble32, if_pos he]

theorem byte_ofNat_eq (a b : Nat) (h : a % 256 = b % 256) : (Fin.ofNat a : Byte) = Fin.ofNat b := by
  apply Fin.ext
  simpa [Fin.ofNat] using h

theorem decodeLoop_step (n F : Nat) (c : Byte) (rest : List Byte) (si : Nat) (acc : List Byte)
    (q : Quantum) (hq : decodeQuantum n (c :: rest) si = q) (hF : (c :: rest).length ≤ F) :
    decodeLoop n F (c :: rest) si acc =
      match q.err with
      | some e => (acc ++ q.out, some e)
      | none => decodeLoop n F q.rest q.nsi (acc ++ q.out) := by
  simp only [List.length_cons] at hF
  obtain ⟨m, rfl⟩ : ∃ m, F = m + 1 := ⟨F - 1, by omega⟩
  have hl := decodeQuantum_rest_le n c rest si
  rw [hq] at hl
  rcases hqe : q.err with _ | e
  · simp only [decodeLoop, hq, hqe]
    exact decodeLoop_fuel n m (m + 1) q.rest q.nsi (acc ++ q.out) (by omega) (by omega)
  · simp only [decodeLoop, hq, hqe]

/-- The second loop of `Decode` and then the last one give what the last one gives alone. -/
theorem decodeFast32_eq (n d : Nat) : ∀ (fuel : Nat) (rest : List Byte) (si : Nat)
    (out : List Byte) (F : Nat), rest.length ≤ F →
    (match decodeFast32 n d fuel rest si out with
      | .returned o e => (o, some e)
      | .left r s o => decodeLoop n F r s o) = decodeLoop n F rest si out := by
  intro fuel
  induction fuel with
  | zero => intro rest si out F _; simp [decodeFast32]
  | succ k ih =>
      intro rest si out F hF
      rcases rest with _ | ⟨c1, _ | ⟨c2, _ | ⟨c3, _ | ⟨c4, rest⟩⟩⟩⟩
      · simp [decodeFast32]
      · simp [decodeFast32]
      · simp [decodeFast32]
      · simp [decodeFast32]
      · simp only [decodeFast32]
        split_ifs with hd
        · by_cases hv : decodeMap c1 ≠ 0xFF ∧ decodeMap c2 ≠ 0xFF ∧ decodeMap c3 ≠ 0xFF ∧
              decodeMap c4 ≠ 0xFF
          · obtain ⟨h1, h2, h3, h4⟩ := hv
            have r1 := (decodeMap_range c1).resolve_right h1
            have r2 := (decodeMap_range c2).resolve_right h2
            have r3 := (decodeMap_range c3).resolve_right h3
            have r4 := (decodeMap_range c4).resolve_right h4
            rw [assemble32_valid _ _ _ _ r1 r2 r3 r4]
            simp only []
            have hq := decodeQuantum_valid4 n c1 c2 c3 c4 h1 h2 h3 h4 rest si
            rw [decodeLoop_step n F c1 _ si out _ hq hF]
            simp only []
            rw [ih rest (si + 4) _ F (by simp only [List.length_cons] at hF; omega)]
            congr 2
            simp only [Nat.shiftRight_eq_div_pow, List.cons.injEq, and_true]
            refine ⟨?_, ?_, ?_⟩ <;> apply byte_ofNat_eq <;> omega
          · have hbad : decodeMap c1 = 0xFF ∨ decodeMap c2 = 0xFF ∨ decodeMap c3 = 0xFF ∨
                decodeMap c4 = 0xFF := by
              by_contra hc
              simp only [not_or] at hc
              exact hv ⟨hc.1, hc.2.1, hc.2.2.1, hc.2.2.2⟩
            rw [assemble32_invalid _ _ _ _ (decodeMap_range c1) (decodeMap_range c2)
              (decodeMap_range c3) (decodeMap_range c4) hbad]
            simp only []
            rw [decodeLoop_step n F c1 _ si out _ rfl hF]
            have hl := decodeQuantum_rest_le n c1 (c2 :: c3 :: c4 :: rest) si
            rcases hqe : (decodeQuantum n (c1 :: c2 :: c3 :: c4 :: rest) si).err with _ | e
            · simp only []
              exact ih _ _ _ F (by simp only [List.length_cons] at hF hl; omega)
            · simp only []
        · rfl

theorem mul_or (a b k : Nat) (hb : b < 2 ^ k) : a * 2 ^ k ||| b = a * 2 ^ k + b := by
  rw [Nat.mul_comm, ← Nat.mul_add_lt_is_or hb]

theorem assemble64_valid (n1 n2 n3 n4 n5 n6 n7 n8 : Nat) (h1 : n1 < 64) (h2 : n2 < 64)
    (h3 : n3 < 64) (h4 : n4 < 64) (h5 : n5 < 64) (h6 : n6 < 64) (h7 : n7 < 64) (h8 : n8 < 64) :
    assemble64 n1 n2 n3 n4 n5 n6 n7 n8 =
      (((n1 * 262144 + n2 * 4096 + n3 * 64 + n4) * 16777216 +
        (n5 * 262144 + n6 * 4096 + n7 * 64 + n8)) * 65536, true) := by
  have hne : n1 ||| n2 ||| n3 ||| n4 ||| n5 ||| n6 ||| n7 ||| n8 ≠ 0xFF := by
    have a := Nat.or_lt_two_pow (n := 6) h1 h2
    have b := Nat.or_lt_two_pow (n := 6) a h3
    have c := Nat.or_lt_two_pow (n := 6) b h4
    have d := Nat.or_lt_two_pow (n := 6) c h5
    have e := Nat.or_lt_two_pow (n := 6) d h6
    have f := Nat.or_lt_two_pow (n := 6) e h7
    have g := Nat.or_lt_two_pow (n := 6) f h8
    omega
  have hv : n1 <<< 58 ||| n2 <<< 52 ||| n3 <<< 46 ||| n4 <<< 40 ||| n5 <<< 34 ||| n6 <<< 28 |||
      n7 <<< 22 ||| n8 <<< 16 =
      ((n1 * 262144 + n2 * 4096 + n3 * 64 + n4) * 16777216 +
        (n5 * 262144 + n6 * 4096 + n7 * 64 + n8)) * 65536 := by
    simp only [Nat.or_assoc, Nat.shiftLeft_eq]
    rw [mul_or n7 _ 22 (by omega), mul_or n6 _ 28 (by omega), mul_or n5 _ 34 (by omega),
      mul_or n4 _ 40 (by omega), mul_or n3 _ 46 (by omega), mul_or n2 _ 52 (by omega),
      mul_or n1 _ 58 (by omega)]
    omega
  simp only [assemble64, if_neg hne, hv]

theorem assemble64_invalid (n1 n2 n3 n4 n5 n6 n7 n8 : Nat) (h1 : n1 < 64 ∨ n1 = 0xFF)
    (h2 : n2 < 64 ∨ n2 = 0xFF) (h3 : n3 < 64 ∨ n3 = 0xFF) (h4 : n4 < 64 ∨ n4 = 0xFF)
    (h5 : n5 < 64 ∨ n5 = 0xFF) (h6 : n6 < 64 ∨ n6 = 0xFF) (h7 : n7 < 64 ∨ n7 = 0xFF)
    (h8 : n8 < 64 ∨ n8 = 0xFF)
    (h : n1 = 0xFF ∨ n2 = 0xFF ∨ n3 = 0xFF ∨ n4 = 0xFF ∨ n5 = 0xFF ∨ n6 = 0xFF ∨ n7 = 0xFF ∨
      n8 = 0xFF) :
    assemble64 n1 n2 n3 n4 n5 n6 n7 n8 = (0, false) := by
  have a := or_range_iff n1 n2 h1 h2
  have b := or_range_iff _ n3 a.1 h3
  have c := or_range_iff _ n4 b.1 h4
  have d := or_range_iff _ n5 c.1 h5
  have e := or_range_iff _ n6 d.1 h6
  have f := or_range_iff _ n7 e.1 h7
  have g := or_range_iff _ n8 f.1 h8
  have he : n1 ||| n2 ||| n3 ||| n4 ||| n5 ||| n6 ||| n7 ||| n8 = 0xFF := by
    rcases h with h | h | h | h | h | h | h | h
    · exact g.2.mpr (Or.inl (f.2.mpr (Or.inl (e.2.mpr (Or.inl (d.2.mpr (Or.inl (c.2.mpr
        (Or.inl (b.2.mpr (Or.inl (a.2.mpr (Or.inl h)))))))))))))
    · exact g.2.mpr (Or.inl (f.2.mpr (Or.inl (e.2.mpr (Or.inl (d.2.mpr (Or.inl (c.2.mpr
        (Or.inl (b.2.mpr (Or.inl (a.2.mpr (Or.inr h)))))))))))))
    · exact g.2.mpr (Or.inl (f.2.mpr (Or.inl (e.2.mpr (Or.inl (d.2.mpr (Or.inl (c.2.mpr
        (Or.inl (b.2.mpr (Or.inr h)))))))))))
    · exact g.2.mpr (Or.inl (f.2.mpr (Or.inl (e.2.mpr (Or.inl (d.2.mpr (Or.inl (c.2.mpr
        (Or.inr h)))))))))
    · exact g.2.mpr (Or.inl (f.2.mpr (Or.inl (e.2.mpr (Or.inl (d.2.mpr (Or.inr h)))))))
    · exact g.2.mpr (Or.inl (f.2.mpr (Or.inl (e.2.mpr (Or.inr h)))))
    · exact g.2.mpr (Or.inl (f.2.mpr (Or.inr h)))
    · exact g.2.mpr (Or.inr h)
  simp only [assemble64, if_pos he]

/-- The first loop of `Decode` and then the last one give what the last one gives alone. -/
theorem decodeFast64_eq (n d : Nat) : ∀ (fuel : Nat) (rest : List Byte) (si : Nat)
    (out : List Byte) (F : Nat), rest.length ≤ F →
    (match decodeFast64 n d fuel rest si out with
      | .returned o e => (o, some e)
      | .left r s o => decodeLoop n F r s o) = decodeLoop n F rest si out := by
  intro fuel
  induction fuel with
  | zero => intro rest si out F _; simp [decodeFast64]
  | succ k ih =>
      intro rest si out F hF
      rcases rest with _ | ⟨c1, _ | ⟨c2, _ | ⟨c3, _ | ⟨c4, _ | ⟨c5, _ | ⟨c6, _ | ⟨c7, _ |
        ⟨c8, rest⟩⟩⟩⟩⟩⟩⟩⟩
      · simp [decodeFast64]
      · simp [decodeFast64]
      · simp [decodeFast64]
      · simp [decodeFast64]
      · simp [decodeFast64]
      · simp [decodeFast64]
      · simp [decodeFast64]
      · simp [decodeFast64]
      · simp only [decodeFast64]
        split_ifs with hd
        · by_cases hv : decodeMap c1 ≠ 0xFF ∧ decodeMap c2 ≠ 0xFF ∧ decodeMap c3 ≠ 0xFF ∧
              decodeMap c4 ≠ 0xFF ∧ decodeMap c5 ≠ 0xFF ∧ decodeMap c6 ≠ 0xFF ∧
              decodeMap c7 ≠ 0xFF ∧ decodeMap c8 ≠ 0xFF
          · obtain ⟨h1, h2, h3, h4, h5, h6, h7, h8⟩ := hv
            have r1 := (decodeMap_range c1).resolve_right h1
            have r2 := (decodeMap_range c2).resolve_right h2
            have r3 := (decodeMap_range c3).resolve_right h3
            have r4 := (decodeMap_range c4).resolve_right h4
            have r5 := (decodeMap_range c5).resolve_right h5
            have r6 := (decodeMap_range c6).resolve_right h6
            have r7 := (decodeMap_range c7).resolve_right h7
            have r8 := (decodeMap_range c8).resolve_right h8
            rw [assemble64_valid _ _ _ _ _ _ _ _ r1 r2 r3 r4 r5 r6 r7 r8]
            simp only []
            have hq1 := decodeQuantum_valid4 n c1 c2 c3 c4 h1 h2 h3 h4
              (c5 :: c6 :: c7 :: c8 :: rest) si
            have hq2 := decodeQuantum_valid4 n c5 c6 c7 c8 h5 h6 h7 h8 rest (si + 4)
            simp only [List.length_cons] at hF
            rw [decodeLoop_step n F c1 _ si out _ hq1 (by simp only [List.length_cons]; omega)]
            rw [decodeLoop_step n F c5 _ (si + 4) _ _ hq2
              (by simp only [List.length_cons]; omega)]
            rw [ih rest (si + 8) _ F (by omega)]
            have hb : ∀ (V1 V2 : Nat), V2 < 16777216 →
                ([Fin.ofNat (((V1 * 16777216 + V2) * 65536) >>> 56),
                  Fin.ofNat (((V1 * 16777216 + V2) * 65536) >>> 48),
                  Fin.ofNat (((V1 * 16777216 + V2) * 65536) >>> 40),
                  Fin.ofNat (((V1 * 16777216 + V2) * 65536) >>> 32),
                  Fin.ofNat (((V1 * 16777216 + V2) * 65536) >>> 24),
                  Fin.ofNat (((V1 * 16777216 + V2) * 65536) >>> 16)] : List Byte) =
                [Fin.ofNat (V1 / 65536), Fin.ofNat (V1 / 256), Fin.ofNat V1] ++
                  [Fin.ofNat (V2 / 65536), Fin.ofNat (V2 / 256), Fin.ofNat V2] := by
              intro V1 V2 hV2
              simp only [Nat.shiftRight_eq_div_pow, List.cons_append, List.nil_append,
                List.cons.injEq, and_true]
              refine ⟨?_, ?_, ?_, ?_, ?_, ?_⟩ <;> apply byte_ofNat_eq <;> omega
            rw [hb _ _ (by omega), List.append_assoc]
          · have hbad : decodeMap c1 = 0xFF ∨ decodeMap c2 = 0xFF ∨ decodeMap c3 = 0xFF ∨
                decodeMap c4 = 0xFF ∨ decodeMap c5 = 0xFF ∨ decodeMap c6 = 0xFF ∨
                decodeMap c7 = 0xFF ∨ decodeMap c8 = 0xFF := by
              by_contra hc
              simp only [not_or] at hc
              exact hv ⟨hc.1, hc.2.1, hc.2.2.1, hc.2.2.2.1, hc.2.2.2.2.1, hc.2.2.2.2.2.1,
                hc.2.2.2.2.2.2.1, hc.2.2.2.2.2.2.2⟩
            rw [assemble64_invalid _ _ _ _ _ _ _ _ (decodeMap_range c1) (decodeMap_range c2)
              (decodeMap_range c3) (decodeMap_range c4) (decodeMap_range c5)
              (decodeMap_range c6) (decodeMap_range c7) (decodeMap_range c8) hbad]
            simp only []
            rw [decodeLoop_step n F c1 _ si out _ rfl hF]
            have hl := decodeQuantum_rest_le n c1
              (c2 :: c3 :: c4 :: c5 :: c6 :: c7 :: c8 :: rest) si
            rcases hqe : (decodeQuantum n
              (c1 :: c2 :: c3 :: c4 :: c5 :: c6 :: c7 :: c8 :: rest) si).err with _ | e
            · simp only []
              exact ih _ _ _ F (by simp only [List.length_cons] at hF hl; omega)
            · simp only []
        · rfl

/-- More rounds than the input has characters change nothing in the second loop. -/
theorem decodeFast32_fuel (n d : Nat) : ∀ (f1 f2 : Nat) (rest : List Byte) (si : Nat)
    (out : List Byte), rest.length ≤ f1 → rest.length ≤ f2 →
    decodeFast32 n d f1 rest si out = decodeFast32 n d f2 rest si out := by
  intro f1
  induction f1 with
  | zero =>
      intro f2 rest si out h1 _
      have : rest = [] := List.length_eq_zero.mp (by omega)
      subst this
      cases f2 <;> simp [decodeFast32]
  | succ k ih =>
      intro f2 rest si out h1 h2
      rcases rest with _ | ⟨c1, _ | ⟨c2, _ | ⟨c3, _ | ⟨c4, rest⟩⟩⟩⟩
      · cases f2 <;> simp [decodeFast32]
      · cases f2 <;> simp [decodeFast32]
      · cases f2 <;> simp [decodeFast32]
      · cases f2 <;> simp [decodeFast32]
      · simp only [List.length_cons] at h1 h2
        obtain ⟨m, rfl⟩ : ∃ m, f2 = m + 1 := ⟨f2 - 1, by omega⟩
        have hl := decodeQuantum_rest_le n c1 (c2 :: c3 :: c4 :: rest) si
        simp only [List.length_cons] at hl
        simp only [decodeFast32]
        split_ifs with hd
        · split
          · exact ih m _ _ _ (by omega) (by omega)
          · split
            · rfl
            · exact ih m _ _ _ (by omega) (by omega)
        · rfl

/-- More rounds than the input has characters change nothing in the first loop. -/
theorem decodeFast64_fuel (n d : Nat) : ∀ (f1 f2 : Nat) (rest : List Byte) (si : Nat)
    (out : List Byte), rest.length ≤ f1 → rest.length ≤ f2 →
    decodeFast64 n d f1 rest si out = decodeFast64 n d f2 rest si out := by
  intro f1
  induction f1 with
  | zero =>
      intro f2 rest si out h1 _
      have : rest = [] := List.length_eq_zero.mp (by omega)
      subst this
      cases f2 <;> simp [decodeFast64]
  | succ k ih =>
      intro f2 rest si out h1 h2
      rcases rest with _ | ⟨c1, _ | ⟨c2, _ | ⟨c3, _ | ⟨c4, _ | ⟨c5, _ | ⟨c6, _ | ⟨c7, _ |
        ⟨c8, rest⟩⟩⟩⟩⟩⟩⟩⟩
      · cases f2 <;> simp [decodeFast64]
      · cases f2 <;> simp [decodeFast64]
      · cases f2 <;> simp [decodeFast64]
      · cases f2 <;> simp [decodeFast64]
      · cases f2 <;> simp [decodeFast64]
      · cases f2 <;> simp [decodeFast64]
      · cases f2 <;> simp [decodeFast64]
      · cases f2 <;> simp [decodeFast64]
      · simp only [List.length_cons] at h1 h2
        obtain ⟨m, rfl⟩ : ∃ m, f2 = m + 1 := ⟨f2 - 1, by omega⟩
        have hl := decodeQuantum_rest_le n c1
          (c2 :: c3 :: c4 :: c5 :: c6 :: c7 :: c8 :: rest) si
        simp only [List.length_cons] at hl
        simp only [decodeFast64]
        split_ifs with hd
        · split
          · exact ih m _ _ _ (by omega) (by omega)
          · split
            · rfl
            · exact ih m _ _ _ (by omega) (by omega)
        · rfl

theorem decodeFast64_left_le (n d : Nat) : ∀ (fuel : Nat) (rest : List Byte) (si : Nat)
    (out r : List Byte) (s : Nat) (o : List Byte),
    decodeFast64 n d fuel rest si out = .left r s o → r.length ≤ rest.length := by
  intro fuel
  induction fuel with
  | zero =>
      intro rest si out r s o h
      simp only [decodeFast64, FastExit.left.injEq] at h
      rw [h.1]
  | succ k ih =>
      intro rest si out r s o h
      rcases rest with _ | ⟨c1, _ | ⟨c2, _ | ⟨c3, _ | ⟨c4, _ | ⟨c5, _ | ⟨c6, _ | ⟨c7, _ |
        ⟨c8, rest⟩⟩⟩⟩⟩⟩⟩⟩
      case cons.cons.cons.cons.cons.cons.cons.cons =>
        have hl := decodeQuantum_rest_le n c1
          (c2 :: c3 :: c4 :: c5 :: c6 :: c7 :: c8 :: rest) si
        simp only [List.length_cons] at hl ⊢
        simp only [decodeFast64] at h
        split_ifs at h with hd
        · split at h
          · have := ih _ _ _ _ _ _ h
            omega
          · split at h
            · cases h
            · have := ih _ _ _ _ _ _ h
              omega
        · simp only [FastExit.left.injEq] at h
          rw [← h.1]
          simp
      all_goals
        simp only [decodeFast64, FastExit.left.injEq] at h
        rw [h.1]

/-- The three loops of `Decode` give what its last loop gives on the whole input: the fast
paths change no result. -/
theorem Decode_eq (src : List Byte) :
    Decode src = decodeLoop src.length src.length src 0 [] := by
  unfold Decode
  split_ifs with h0
  · have : src = [] := List.length_eq_zero.mp h0
    subst this
    rfl
  · have h64 := decodeFast64_eq src.length (DecodedLen src.length) src.length src 0 []
      src.length (le_refl _)
    rcases hx : decodeFast64 src.length (DecodedLen src.length) src.length src 0 [] with
      ⟨o, e⟩ | ⟨r, s, o⟩
    · rw [hx] at h64
      exact h64
    · rw [hx] at h64
      simp only [] at h64 ⊢
      have hr := decodeFast64_left_le _ _ _ _ _ _ _ _ _ hx
      have h32 := decodeFast32_eq src.length (DecodedLen src.length) src.length r s o
        src.length hr
      rw [← h64, ← h32]

/-- Decoding what `EncodeToString` produced gives the bytes back, without error. -/
theorem DecodeString_EncodeToString (bs : List Byte) :
    DecodeString (EncodeToString bs) = (bs, none) := by
  unfold DecodeString
  rw [Decode_eq, decodeLoop_encode _ bs _ 0 [] (le_refl _)]
  simp

/-- A string with a byte outside the alphabet that is neither `=` nor a line break does not
decode. -/
theorem DecodeString_bad (s : List Byte) (bad : Byte) (hmem : bad ∈ s) (halpha : bad ∉ encodeStd)
    (hpad : bad ≠ padChar) (hlf : bad ≠ charLF) (hcr : bad ≠ charCR) :
    (DecodeString s).2 ≠ none := by
  unfold DecodeString
  rw [Decode_eq]
  exact decodeLoop_bad _ bad (decodeMap_not_mem bad halpha) hlf hcr hpad _ s 0 []
    (le_refl _) hmem

end base64

theorem Bytes.ext {n : Nat} (a b : Bytes n) (h : a.val = b.val) : a = b := Subtype.ext h

theorem Bytes.copy_val_of_le {n : Nat} (dst : Bytes n) (src : List Byte) (h : n ≤ src.length) :
    (dst.copy src).val = src.take n := by
  have hd := dst.property
  simp only [Bytes.copy, List.length_take]
  rw [List.drop_eq_nil_of_le (by omega), List.append_nil]

theorem Bytes.copy_self {n : Nat} (dst a : Bytes n) : dst.copy a.val = a := by
  apply Bytes.ext
  rw [Bytes.copy_val_of_le dst a.val (by rw [a.property])]
  exact List.take_of_length_le (by rw [a.property])

theorem Byte.xor_xor_cancel (k x : Byte) : k ^^^ (k ^^^ x) = x := by
  apply Fin.ext
  have hk := k.isLt
  have hx := x.isLt
  have h1 : k.val ^^^ x.val < 256 := Nat.xor_lt_two_pow (n := 8) hk hx
  show (k.val ^^^ ((k.val ^^^ x.val) % 256)) % 256 = x.val
  rw [Nat.mod_eq_of_lt h1, ← Nat.xor_assoc, Nat.xor_self, Nat.zero_xor, Nat.mod_eq_of_lt hx]

theorem Byte.xor_xor_cancel_right (k x : Byte) : (x ^^^ k) ^^^ k = x := by
  apply Fin.ext
  have hk := k.isLt
  have hx := x.isLt
  have h1 : x.val ^^^ k.val < 256 := Nat.xor_lt_two_pow (n := 8) hx hk
  show (((x.val ^^^ k.val) % 256) ^^^ k.val) % 256 = x.val
  rw [Nat.mod_eq_of_lt h1, Nat.xor_assoc, Nat.xor_self, Nat.xor_zero, Nat.mod_eq_of_lt hx]

namespace box

theorem xorWith_length (ks : Nat → Byte) (inp : List Byte) (i : Nat) :
    (xorWith ks inp i).length = inp.length := by
  induction inp generalizing i with
  | nil => rfl
  | cons b rest ih => simp [xorWith, ih]

theorem xorWith_xorWith (ks : Nat → Byte) (inp : List Byte) (i : Nat) :
    xorWith ks (xorWith ks inp i) i = inp := by
  induction inp generalizing i with
  | nil => rfl
  | cons b rest ih => simp [xorWith, ih, Byte.xor_xor_cancel_right]

theorem XORKeyStream_length (P : Primitives) (inp : List Byte) (counter : Bytes 16)
    (key : Bytes 32) : (XORKeyStream P inp counter key).length = inp.length :=
  xorWith_length _ _ _

theorem zipWith_xor_length (ks m : List Byte) (h : m.length ≤ ks.length) :
    (List.zipWith (fun k x => k ^^^ x) ks m).length = m.length := by
  simp [List.length_zipWith]; omega

theorem zipWith_xor_cancel (ks : List Byte) : ∀ m : List Byte, m.length ≤ ks.length →
    List.zipWith (fun k x => k ^^^ x) ks (List.zipWith (fun k x => k ^^^ x) ks m) = m := by
  induction ks with
  | nil => intro m h; cases m <;> simp_all
  | cons k ks ih =>
      intro m h
      cases m with
      | nil => simp
      | cons x m =>
          simp only [List.length_cons, Nat.add_le_add_iff_right] at h
          simp [ih m h, Byte.xor_xor_cancel]

/-- The sealed message is the tag and one ciphertext byte for each message byte. -/
theorem secretboxSeal_length (P : Primitives) (out message : List Byte) (nonce : Bytes 24)
    (key : Bytes 32) :
    (secretboxSeal P out message nonce key).length = out.length + 16 + message.length := by
  simp only [secretboxSeal, setup, List.length_append, (P.Poly1305Sum _ _).property]
  have hfb : ∀ c k, ((XORKeyStream P (Bytes.zero 64).val c k).drop 32).length = 32 := by
    intro c k
    rw [List.length_drop, XORKeyStream_length]
    simp [Bytes.zero]
  rw [XORKeyStream_length, List.length_zipWith, hfb, List.length_drop]
  split_ifs with h
  · simp only [List.length_take]; omega
  · omega

theorem body_roundtrip (fb : List Byte) (hfb : fb.length = 32) (ks : Nat → Byte)
    (m : List Byte) :
    List.zipWith (fun k x => k ^^^ x) fb
        (if (List.zipWith (fun k x => k ^^^ x) fb (if m.length > 32 then m.take 32 else m) ++
              xorWith ks (m.drop (if m.length > 32 then m.take 32 else m).length) 0).length > 32
          then (List.zipWith (fun k x => k ^^^ x) fb (if m.length > 32 then m.take 32 else m) ++
              xorWith ks (m.drop (if m.length > 32 then m.take 32 else m).length) 0).take 32
          else (List.zipWith (fun k x => k ^^^ x) fb (if m.length > 32 then m.take 32 else m) ++
              xorWith ks (m.drop (if m.length > 32 then m.take 32 else m).length) 0)) ++
      xorWith ks
        ((List.zipWith (fun k x => k ^^^ x) fb (if m.length > 32 then m.take 32 else m) ++
              xorWith ks (m.drop (if m.length > 32 then m.take 32 else m).length) 0).drop
          (if (List.zipWith (fun k x => k ^^^ x) fb (if m.length > 32 then m.take 32 else m) ++
              xorWith ks (m.drop (if m.length > 32 then m.take 32 else m).length) 0).length > 32
          then (List.zipWith (fun k x => k ^^^ x) fb (if m.length > 32 then m.take 32 else m) ++
              xorWith ks (m.drop (if m.length > 32 then m.take 32 else m).length) 0).take 32
          else (List.zipWith (fun k x => k ^^^ x) fb (if m.length > 32 then m.take 32 else m) ++
              xorWith ks (m.drop (if m.length > 32 then m.take 32 else m).length) 0)).length) 0 =
      m := by
  by_cases h : m.length > 32
  · rw [if_pos h]
    have ht : (m.take 32).length = 32 := by rw [List.length_take]; omega
    have hc1 : (List.zipWith (fun k x => k ^^^ x) fb (m.take 32)).length = 32 := by
      rw [zipWith_xor_length _ _ (by omega), ht]
    rw [ht]
    have hl : (List.zipWith (fun k x => k ^^^ x) fb (m.take 32) ++
        xorWith ks (m.drop 32) 0).length > 32 := by
      rw [List.length_append, hc1, xorWith_length, List.length_drop]; omega
    rw [if_pos hl, List.take_append_of_le_length (by omega), List.take_of_length_le (by omega),
      hc1, List.drop_append_of_le_length (by omega), List.drop_of_length_le (by omega),
      List.nil_append, zipWith_xor_cancel _ _ (by omega), xorWith_xorWith, List.take_append_drop]
  · rw [if_neg h]
    have hc1 : (List.zipWith (fun k x => k ^^^ x) fb m).length = m.length :=
      zipWith_xor_length _ _ (by omega)
    rw [List.drop_of_length_le (le_refl _)]
    simp only [xorWith, List.append_nil]
    rw [hc1, if_neg h, hc1, List.drop_of_length_le (by omega), zipWith_xor_cancel _ _ (by omega)]
    simp [xorWith]

/-- Opening what `secretbox.Seal` made, with the same nonce and key, gives the message. -/
theorem secretboxOpen_secretboxSeal (P : Primitives) (message : List Byte) (nonce : Bytes 24)
    (key : Bytes 32) :
    secretboxOpen P [] (secretboxSeal P [] message nonce key) nonce key = some message := by
  have hlen := secretboxSeal_length P [] message nonce key
  simp only [secretboxOpen, Overhead]
  rw [if_neg (by rw [hlen]; simp)]
  simp only [secretboxSeal, setup, List.nil_append]
  generalize hsub : P.HSalsa20 ((Bytes.zero 16).copy nonce.val) key = subKey
  generalize hctr : (Bytes.zero 16).copy (List.drop 16 nonce.val) = counter
  generalize hfb : XORKeyStream P (Bytes.zero 64).val counter subKey = firstBlock
  have hfbl : (firstBlock.drop 32).length = 32 := by
    rw [← hfb, List.length_drop, XORKeyStream_length]
    simp [Bytes.zero]
  generalize hpk : (Bytes.zero 32).copy firstBlock = polyKey
  generalize hbody : List.zipWith (fun k x => k ^^^ x) (firstBlock.drop 32)
      (if message.length > 32 then message.take 32 else message) ++
      XORKeyStream P (message.drop (if message.length > 32 then message.take 32 else message).length)
        (counter.set 8 1) subKey = body
  generalize htag : P.Poly1305Sum body polyKey = tag
  have htl := tag.property
  have hd16 : (tag.val ++ body).drop 16 = body := by
    rw [List.drop_append_of_le_length (by omega), List.drop_of_length_le (by omega)]
    rfl
  have hcopy : (Bytes.zero 16).copy (tag.val ++ body) = tag := by
    apply Bytes.ext
    rw [Bytes.copy_val_of_le _ _ (by simp), List.take_append_of_le_length (by omega)]
    exact List.take_of_length_le (by omega)
  rw [hd16, hcopy, htag, if_neg (by simp)]
  rw [← hbody]
  exact congrArg some (body_roundtrip (firstBlock.drop 32) hfbl
    (P.Salsa20KeyStream (counter.set 8 1) subKey) message)

end box

namespace io

theorem ReadFull32_of_le (r : Reader) (h : 32 ≤ r.length) :
    ReadFull32 r = (.ok ⟨r.take 32, by simp [h]⟩, r.drop 32) := by
  simp [ReadFull32, h]

theorem ReadFull32_ok (r r1 : Reader) (priv : Bytes 32) (h : ReadFull32 r = (.ok priv, r1)) :
    32 ≤ r.length ∧ priv.val = r.take 32 ∧ r1 = r.drop 32 := by
  unfold ReadFull32 at h
  split_ifs at h with h1 h2
  · simp only [Prod.mk.injEq, Except.ok.injEq] at h
    exact ⟨h1, by rw [← h.1], h.2.symm⟩
  · simp at h
  · simp at h

end io

namespace box

theorem SealAnonymous_ok (P : Primitives) (out message : List Byte) (recipient : Bytes 32)
    (rand r1 : io.Reader) (priv : Bytes 32) (h : io.ReadFull32 rand = (.ok priv, r1)) :
    SealAnonymous P out message recipient rand =
      (.ok (Seal P (out ++ (P.ScalarBaseMult priv).val) message
        (sealNonce P (P.ScalarBaseMult priv) recipient) recipient priv), r1) := by
  simp [SealAnonymous, GenerateKey, h]

theorem SealAnonymous_error (P : Primitives) (out message : List Byte) (recipient : Bytes 32)
    (rand r1 : io.Reader) (e : io.Error) (h : io.ReadFull32 rand = (.error e, r1)) :
    SealAnonymous P out message recipient rand = (.error e, r1) := by
  simp [SealAnonymous, GenerateKey, h]

theorem secretboxSeal_out (P : Primitives) (out message : List Byte) (nonce : Bytes 24)
    (key : Bytes 32) :
    secretboxSeal P out message nonce key = out ++ secretboxSeal P [] message nonce key := by
  simp [secretboxSeal]

/-- The sealed box is 48 bytes longer than the message. -/
theorem Seal_length (P : Primitives) (out message : List Byte) (nonce : Bytes 24)
    (peer priv : Bytes 32) :
    (Seal P out message nonce peer priv).length = out.length + 16 + message.length :=
  secretboxSeal_length P out message nonce _

end box

namespace encryption

theorem Encrypt_decode_error (P : box.Primitives) (rand : io.Reader) (pk_b64 secret : List Byte)
    (pk : List Byte) (e : base64.CorruptInputError)
    (h : base64.DecodeString pk_b64 = (pk, some e)) :
    Encrypt P rand pk_b64 secret = (⟨some (.decode e), [], []⟩, rand) := by
  simp [Encrypt, h]

theorem Encrypt_short_key (P : box.Primitives) (rand : io.Reader) (pk_b64 secret : List Byte)
    (pk : List Byte) (h : base64.DecodeString pk_b64 = (pk, none)) (hlen : pk.length < 32) :
    Encrypt P rand pk_b64 secret = (⟨some .invalidKey, [], []⟩, rand) := by
  simp [Encrypt, h, hlen]

theorem Encrypt_seal_error (P : box.Primitives) (rand r1 : io.Reader)
    (pk_b64 secret : List Byte) (pk : List Byte) (e : io.Error)
    (h : base64.DecodeString pk_b64 = (pk, none)) (hlen : 32 ≤ pk.length)
    (hr : io.ReadFull32 rand = (.error e, r1)) :
    Encrypt P rand pk_b64 secret = (⟨some (.seal e), [], []⟩, r1) := by
  have hl : ¬ pk.length < 32 := by omega
  simp [Encrypt, h, hl, box.SealAnonymous_error P _ _ _ _ _ _ hr]

theorem Encrypt_sealed (P : box.Primitives) (rand r1 : io.Reader)
    (pk_b64 secret : List Byte) (pk : List Byte) (priv : Bytes 32)
    (h : base64.DecodeString pk_b64 = (pk, none)) (hlen : 32 ≤ pk.length)
    (hr : io.ReadFull32 rand = (.ok priv, r1)) :
    Encrypt P rand pk_b64 secret =
      (⟨none,
        base64.EncodeToString (box.Seal P (P.ScalarBaseMult priv).val secret
          (box.sealNonce P (P.ScalarBaseMult priv) ((Bytes.zero 32).copy (pk.take 32)))
          ((Bytes.zero 32).copy (pk.take 32)) priv),
        box.Seal P (P.ScalarBaseMult priv).val secret
          (box.sealNonce P (P.ScalarBaseMult priv) ((Bytes.zero 32).copy (pk.take 32)))
          ((Bytes.zero 32).copy (pk.take 32)) priv⟩, r1) := by
  have hl : ¬ pk.length < 32 := by omega
  simp [Encrypt, h, hl, box.SealAnonymous_ok P _ _ _ _ _ _ hr]

end encryption

open base64 encryption provider

/-- Claim C1: for a public key that is the standard base64 of exactly 32 bytes (any 32 bytes,
no curve-point check) and any secret, also the empty one, `Encrypt` returns no error and a
`Raw` of `len(secret) + 48` bytes, when the random source supplies the 32 bytes of the
ephemeral key. -/
theorem encrypt_succeeds_with_overhead_48 (P : box.Primitives) (rand : io.Reader)
    (key secret : List Byte) (hkey : key.length = 32) (hrand : 32 ≤ rand.length) :
    (Encrypt P rand (EncodeToString key) secret).1.Err = none ∧
      (Encrypt P rand (EncodeToString key) secret).1.Raw.length = secret.length + 48 := by
  rw [Encrypt_sealed P rand _ _ secret key _ (DecodeString_EncodeToString key) (by omega)
    (io.ReadFull32_of_le rand hrand)]
  refine ⟨rfl, ?_⟩
  simp only [box.Seal_length, (P.ScalarBaseMult _).property]
  omega

/-- Claim C1 at the key of 32 zero bytes and the empty secret: no error, 48 bytes. -/
theorem encrypt_succeeds_with_overhead_48_witness :
    (List.replicate 32 (0 : Byte)).length = 32 ∧ 32 ≤ (List.replicate 32 (7 : Byte)).length ∧
      (Encrypt box.testPrimitives (List.replicate 32 7)
        (EncodeToString (List.replicate 32 0)) []).1.Err = none ∧
      (Encrypt box.testPrimitives (List.replicate 32 7)
        (EncodeToString (List.replicate 32 0)) []).1.Raw.length = ([] : List Byte).length + 48 :=
  ⟨by decide, by decide,
    encrypt_succeeds_with_overhead_48 box.testPrimitives (List.replicate 32 7)
      (List.replicate 32 0) [] (by decide) (by decide)⟩

/-- Claim C2: when the public key decodes without error to fewer than 32 bytes, `Encrypt`
returns the error "invalid public key: length under 32" with empty `Raw` and `Encoded`,
whatever the secret and the primitives, and the random source is left as it was: the sealing
primitive is not called. -/
theorem encrypt_short_key_is_invalid (P : box.Primitives) (rand : io.Reader)
    (pk_b64 secret pk : List Byte) (hdec : DecodeString pk_b64 = (pk, none))
    (hlen : pk.length < 32) :
    Encrypt P rand pk_b64 secret = (⟨some .invalidKey, [], []⟩, rand) ∧
      encryption.Error.Error .invalidKey = "invalid public key: length under 32" :=
  ⟨Encrypt_short_key P rand pk_b64 secret pk hdec hlen, rfl⟩

/-- Claim C2 at the empty public key string. -/
theorem encrypt_short_key_is_invalid_witness :
    DecodeString [] = ([], none) ∧ ([] : List Byte).length < 32 ∧
      Encrypt box.testPrimitives [1, 2, 3] [] (goString "value") =
        (⟨some .invalidKey, [], []⟩, [1, 2, 3]) ∧
      encryption.Error.Error .invalidKey = "invalid public key: length under 32" :=
  ⟨by decide, by decide,
    encrypt_short_key_is_invalid box.testPrimitives [1, 2, 3] [] (goString "value") []
      (by decide) (by decide)⟩

/-- Claim C3, as the code has it: when the public key does not decode, and in particular
when it contains a byte that is outside the alphabet and is neither `=` nor a line feed nor a
carriage return, `Encrypt` returns the error "failed to decode public key: ..." with empty
`Raw` and `Encoded`, whatever the secret. -/
theorem encrypt_bad_character_is_decode_error (P : box.Primitives) (rand : io.Reader)
    (pk_b64 secret : List Byte)
    (h : (DecodeString pk_b64).2 ≠ none ∨
      ∃ bad ∈ pk_b64, bad ∉ encodeStd ∧ bad ≠ padChar ∧ bad ≠ charLF ∧ bad ≠ charCR) :
    ∃ e : CorruptInputError,
      Encrypt P rand pk_b64 secret = (⟨some (.decode e), [], []⟩, rand) ∧
      encryption.Error.Error (.decode e) =
        "failed to decode public key: " ++ CorruptInputError.Error e := by
  have herr : (DecodeString pk_b64).2 ≠ none := by
    rcases h with h | ⟨bad, hmem, ha, hp, hlf, hcr⟩
    · exact h
    · exact DecodeString_bad pk_b64 bad hmem ha hp hlf hcr
  rcases hd : DecodeString pk_b64 with ⟨pk, _ | e⟩
  · rw [hd] at herr; exact absurd rfl herr
  · exact ⟨e, Encrypt_decode_error P rand pk_b64 secret pk e hd, rfl⟩

/-- Claim C3 as amended, at the key string `AA!A`. -/
theorem encrypt_bad_character_is_decode_error_witness :
    ((DecodeString (goString "AA!A")).2 ≠ none ∨
      ∃ bad ∈ goString "AA!A", bad ∉ encodeStd ∧ bad ≠ padChar ∧ bad ≠ charLF ∧ bad ≠ charCR) ∧
    ∃ e : CorruptInputError,
      Encrypt box.testPrimitives [] (goString "AA!A") [] = (⟨some (.decode e), [], []⟩, []) ∧
      encryption.Error.Error (.decode e) =
        "failed to decode public key: " ++ CorruptInputError.Error e :=
  ⟨Or.inr ⟨33, by decide, by decide, by decide, by decide, by decide⟩,
    encrypt_bad_character_is_decode_error box.testPrimitives [] (goString "AA!A") []
      (Or.inr ⟨33, by decide, by decide, by decide, by decide, by decide⟩)⟩

set_option maxRecDepth 100000 in
/-- Claim C3 fails as stated: a line feed is outside the alphabet and is not `=`, yet the
base64 of 32 zero bytes followed by a line feed is accepted as a public key, and `Encrypt`
succeeds. -/
theorem encrypt_accepts_key_with_line_feed :
    charLF ∈ EncodeToString (List.replicate 32 0) ++ [charLF] ∧ charLF ∉ encodeStd ∧
      charLF ≠ padChar ∧
      (Encrypt box.testPrimitives (List.replicate 32 7)
        (EncodeToString (List.replicate 32 0) ++ [charLF]) (goString "value")).1.Err = none := by
  decide

theorem Byte.zero_xor (k : Byte) : (0 : Byte) ^^^ k = k := by
  apply Fin.ext
  have hk := k.isLt
  show (0 ^^^ k.val) % 256 = k.val
  rw [Nat.zero_xor, Nat.mod_eq_of_lt hk]

theorem Byte.xor_comm (a b : Byte) : a ^^^ b = b ^^^ a := by
  apply Fin.ext
  show (a.val ^^^ b.val) % 256 = (b.val ^^^ a.val) % 256
  rw [Nat.xor_comm]

namespace box

theorem xorWith_eq_zipWith (ks : Nat → Byte) (l : List Byte) (i : Nat) :
    xorWith ks l i = List.zipWith (fun b k => b ^^^ k) l ((List.range' i l.length).map ks) := by
  induction l generalizing i with
  | nil => rfl
  | cons b rest ih => simp [xorWith, ih, List.range'_succ]

theorem xorWith_zeros (ks : Nat → Byte) (n i : Nat) :
    xorWith ks (List.replicate n 0) i = (List.range' i n).map ks := by
  induction n generalizing i with
  | zero => rfl
  | succ n ih => simp [List.replicate_succ, xorWith, ih, List.range'_succ, Byte.zero_xor]

theorem setup_eq (P : Primitives) (nonce : Bytes 24) (key : Bytes 32) :
    setup P nonce key =
      (P.HSalsa20 ⟨nonce.val.take 16, by simp [nonce.property]⟩ key, sealedBoxCounter nonce 0) := by
  have hn := nonce.property
  simp only [setup, Prod.mk.injEq]
  constructor
  · congr 1
    apply Bytes.ext
    rw [Bytes.copy_val_of_le _ _ (by omega)]
  · apply Bytes.ext
    simp only [Bytes.copy, Bytes.zero, sealedBoxCounter, List.length_take, List.length_drop, hn]
    rw [List.take_of_length_le (by simp [hn])]
    rfl

theorem sealedBoxCounter_set (nonce : Bytes 24) :
    (sealedBoxCounter nonce 0).set 8 1 = sealedBoxCounter nonce 1 := by
  have hn := nonce.property
  apply Bytes.ext
  simp only [Bytes.set, sealedBoxCounter]
  rw [List.set_append_right _ _ (by simp [hn])]
  simp [hn]

end box

namespace box

theorem firstBlock_eq (ks : Nat → Byte) :
    xorWith ks (Bytes.zero 64).val 0 =
      (List.range' 0 32).map ks ++ (List.range' 32 32).map ks := by
  have h : (Bytes.zero 64).val = List.replicate 64 0 := rfl
  have hr : List.range' 0 64 = List.range' 0 32 ++ List.range' 32 32 :=
    (List.range'_append_1 0 32 32).symm
  rw [h, xorWith_zeros, hr, List.map_append]

/-- The message part of `secretbox.Seal` is the message xored with the key stream of the
format. -/
theorem sealBody_eq (ks0 ks1 : Nat → Byte) (m : List Byte) :
    List.zipWith (fun k x => k ^^^ x) ((List.range' 32 32).map ks0)
        (if m.length > 32 then m.take 32 else m) ++
      xorWith ks1 (m.drop (if m.length > 32 then m.take 32 else m).length) 0 =
    List.zipWith (fun b k => b ^^^ k) m
      ((List.range' 32 32).map ks0 ++ (List.range' 0 (m.length - 32)).map ks1) := by
  have hcomm : ∀ K X : List Byte, List.zipWith (fun k x => k ^^^ x) K X =
      List.zipWith (fun b k => b ^^^ k) X K := by
    intro K X
    exact List.zipWith_comm_of_comm _ (fun x y => Byte.xor_comm x y) K X
  rw [hcomm, xorWith_eq_zipWith]
  by_cases h : m.length > 32
  · rw [if_pos h]
    have ht : (m.take 32).length = 32 := by rw [List.length_take]; omega
    rw [ht, List.length_drop]
    have hK : ((List.range' 32 32).map ks0).length = (m.take 32).length := by simp [ht]
    rw [← List.zipWith_append _ _ _ _ _ hK.symm, List.take_append_drop]
  · rw [if_neg h]
    have h0 : m.length - 32 = 0 := by omega
    rw [List.drop_of_length_le (le_refl _), h0]
    simp

theorem secretboxSeal_format (P : Primitives) (message : List Byte) (nonce : Bytes 24)
    (key : Bytes 32) :
    secretboxSeal P [] message nonce key =
      (P.Poly1305Sum
          (List.zipWith (fun b k => b ^^^ k) message
            (sealedBoxKeyStream P nonce
              (P.HSalsa20 ⟨nonce.val.take 16, by simp [nonce.property]⟩ key) message.length))
          ⟨(List.range' 0 32).map (P.Salsa20KeyStream (sealedBoxCounter nonce 0)
            (P.HSalsa20 ⟨nonce.val.take 16, by simp [nonce.property]⟩ key)), by simp⟩).val ++
        List.zipWith (fun b k => b ^^^ k) message
          (sealedBoxKeyStream P nonce
            (P.HSalsa20 ⟨nonce.val.take 16, by simp [nonce.property]⟩ key) message.length) := by
  simp only [secretboxSeal, setup_eq, XORKeyStream, sealedBoxCounter_set, firstBlock_eq,
    List.nil_append]
  have hd : ∀ ks : Nat → Byte,
      ((List.range' 0 32).map ks ++ (List.range' 32 32).map ks).drop 32 =
        (List.range' 32 32).map ks := by
    intro ks
    rw [List.drop_append_of_le_length (by simp), List.drop_of_length_le (by simp)]
    rfl
  have hc : ∀ ks : Nat → Byte,
      (Bytes.zero 32).copy ((List.range' 0 32).map ks ++ (List.range' 32 32).map ks) =
        ⟨(List.range' 0 32).map ks, by simp⟩ := by
    intro ks
    apply Bytes.ext
    rw [Bytes.copy_val_of_le _ _ (by simp), List.take_append_of_le_length (by simp)]
    exact List.take_of_length_le (by simp)
  rw [hd, hc, sealBody_eq]
  rfl

/-- What `Seal` appends to the ephemeral public key in `SealAnonymous` is the sealed box of
the format: the tag, then the ciphertext. -/
theorem Seal_eq_sealedBox (P : Primitives) (message : List Byte)
    (recipient ephemeralPriv : Bytes 32) :
    Seal P (P.ScalarBaseMult ephemeralPriv).val message
        (sealNonce P (P.ScalarBaseMult ephemeralPriv) recipient) recipient ephemeralPriv =
      (P.ScalarBaseMult ephemeralPriv).val ++
        (sealedBoxTag P recipient ephemeralPriv message).val ++
        sealedBoxCiphertext P recipient ephemeralPriv message := by
  simp only [Seal]
  rw [secretboxSeal_out, secretboxSeal_format, List.append_assoc]
  rfl

end box

theorem Encrypt_cases (P : box.Primitives) (rand : io.Reader) (pk_b64 secret : List Byte) :
    ((Encrypt P rand pk_b64 secret).1.Err ≠ none ∧ (Encrypt P rand pk_b64 secret).1.Raw = [] ∧
        (Encrypt P rand pk_b64 secret).1.Encoded = []) ∨
      ((Encrypt P rand pk_b64 secret).1.Err = none ∧
        (Encrypt P rand pk_b64 secret).1.Encoded =
          EncodeToString (Encrypt P rand pk_b64 secret).1.Raw) := by
  rcases hd : DecodeString pk_b64 with ⟨pk, _ | e⟩
  · by_cases hlen : pk.length < 32
    · rw [Encrypt_short_key P rand pk_b64 secret pk hd hlen]
      exact Or.inl ⟨by simp, rfl, rfl⟩
    · rcases hr : io.ReadFull32 rand with ⟨e | priv, r1⟩
      · rw [Encrypt_seal_error P rand r1 pk_b64 secret pk e hd (by omega) hr]
        exact Or.inl ⟨by simp, rfl, rfl⟩
      · rw [Encrypt_sealed P rand r1 pk_b64 secret pk priv hd (by omega) hr]
        exact Or.inr ⟨rfl, rfl⟩
  · rw [Encrypt_decode_error P rand pk_b64 secret pk e hd]
    exact Or.inl ⟨by simp, rfl, rfl⟩

/-- Claim C4: for every public key string and secret, `Encoded` decodes (standard padded
base64) to `Raw` without error; on success `Encoded` is the standard encoding of `Raw`, and
on every error both are empty. -/
theorem encrypt_encoded_decodes_to_raw (P : box.Primitives) (rand : io.Reader)
    (pk_b64 secret : List Byte) :
    DecodeString (Encrypt P rand pk_b64 secret).1.Encoded =
        ((Encrypt P rand pk_b64 secret).1.Raw, none) ∧
      ((Encrypt P rand pk_b64 secret).1.Err = none →
        (Encrypt P rand pk_b64 secret).1.Encoded =
          EncodeToString (Encrypt P rand pk_b64 secret).1.Raw) ∧
      ((Encrypt P rand pk_b64 secret).1.Err ≠ none →
        (Encrypt P rand pk_b64 secret).1.Raw = [] ∧
          (Encrypt P rand pk_b64 secret).1.Encoded = []) := by
  rcases Encrypt_cases P rand pk_b64 secret with ⟨herr, hraw, henc⟩ | ⟨hok, henc⟩
  · refine ⟨?_, fun h => absurd h herr, fun _ => ⟨hraw, henc⟩⟩
    rw [henc, hraw]
    rfl
  · refine ⟨?_, fun _ => henc, fun h => absurd hok h⟩
    rw [henc]
    exact DecodeString_EncodeToString _

/-- Claim C5: only the first 32 decoded bytes of the public key are used. Two key strings
that decode to at least 32 bytes each, with the same first 32 bytes, give the same result for
the same secret and the same randomness; a decoded key longer than 32 bytes is not rejected:
the result is no invalid-key error, and no error at all when the random source supplies the
ephemeral key. -/
theorem encrypt_uses_first_32_key_bytes (P : box.Primitives) (rand : io.Reader)
    (pk1 pk2 secret k1 k2 : List Byte) (h1 : DecodeString pk1 = (k1, none))
    (h2 : DecodeString pk2 = (k2, none)) (hl1 : 32 ≤ k1.length) (hl2 : 32 ≤ k2.length)
    (heq : k1.take 32 = k2.take 32) :
    Encrypt P rand pk1 secret = Encrypt P rand pk2 secret ∧
      (Encrypt P rand pk1 secret).1.Err ≠ some .invalidKey ∧
      (32 ≤ rand.length → (Encrypt P rand pk1 secret).1.Err = none) := by
  rcases hr : io.ReadFull32 rand with ⟨e | priv, r1⟩
  · rw [Encrypt_seal_error P rand r1 pk1 secret k1 e h1 hl1 hr,
      Encrypt_seal_error P rand r1 pk2 secret k2 e h2 hl2 hr]
    refine ⟨rfl, by simp, ?_⟩
    intro hlen
    rw [io.ReadFull32_of_le rand hlen] at hr
    simp at hr
  · rw [Encrypt_sealed P rand r1 pk1 secret k1 priv h1 hl1 hr,
      Encrypt_sealed P rand r1 pk2 secret k2 priv h2 hl2 hr, heq]
    exact ⟨rfl, by simp, fun _ => rfl⟩

/-- Claim C5 at two keys of 33 and 34 bytes that start with the same 32 bytes. -/
theorem encrypt_uses_first_32_key_bytes_witness :
    DecodeString (EncodeToString (List.replicate 32 0 ++ [1])) =
        (List.replicate 32 0 ++ [1], none) ∧
      DecodeString (EncodeToString (List.replicate 32 0 ++ [2, 3])) =
        (List.replicate 32 0 ++ [2, 3], none) ∧
      32 ≤ (List.replicate 32 (0 : Byte) ++ [1]).length ∧
      32 ≤ (List.replicate 32 (0 : Byte) ++ [2, 3]).length ∧
      (List.replicate 32 (0 : Byte) ++ [1]).take 32 =
        (List.replicate 32 (0 : Byte) ++ [2, 3]).take 32 ∧
      Encrypt box.testPrimitives (List.replicate 32 7)
          (EncodeToString (List.replicate 32 0 ++ [1])) (goString "value") =
        Encrypt box.testPrimitives (List.replicate 32 7)
          (EncodeToString (List.replicate 32 0 ++ [2, 3])) (goString "value") ∧
      (Encrypt box.testPrimitives (List.replicate 32 7)
          (EncodeToString (List.replicate 32 0 ++ [1])) (goString "value")).1.Err ≠
        some .invalidKey ∧
      (32 ≤ (List.replicate 32 (7 : Byte)).length →
        (Encrypt box.testPrimitives (List.replicate 32 7)
          (EncodeToString (List.replicate 32 0 ++ [1])) (goString "value")).1.Err = none) :=
  ⟨DecodeString_EncodeToString _, DecodeString_EncodeToString _, by decide, by decide,
    by decide,
    encrypt_uses_first_32_key_bytes box.testPrimitives (List.replicate 32 7) _ _
      (goString "value") _ _ (DecodeString_EncodeToString _) (DecodeString_EncodeToString _)
      (by decide) (by decide) (by decide)⟩

namespace box

/-- Opening a sealed box with the key pair of the recipient gives the message, when the two
sides of the Diffie-Hellman exchange agree. -/
theorem OpenAnonymous_Seal (P : Primitives)
    (hDH : ∀ a b : Bytes 32,
      P.ScalarMult a (P.ScalarBaseMult b) = P.ScalarMult b (P.ScalarBaseMult a))
    (message : List Byte) (sk priv : Bytes 32) :
    OpenAnonymous P [] (Seal P (P.ScalarBaseMult priv).val message
        (sealNonce P (P.ScalarBaseMult priv) (P.ScalarBaseMult sk)) (P.ScalarBaseMult sk) priv)
      (P.ScalarBaseMult sk) sk = some message := by
  have hlen := Seal_length P (P.ScalarBaseMult priv).val message
    (sealNonce P (P.ScalarBaseMult priv) (P.ScalarBaseMult sk)) (P.ScalarBaseMult sk) priv
  have hepk := (P.ScalarBaseMult priv).property
  unfold OpenAnonymous
  rw [if_neg (by rw [hlen, AnonymousOverhead]; omega)]
  simp only [Seal] at hlen ⊢
  rw [secretboxSeal_out]
  have htake : ((P.ScalarBaseMult priv).val ++ secretboxSeal P [] message
      (sealNonce P (P.ScalarBaseMult priv) (P.ScalarBaseMult sk))
      (Precompute P (P.ScalarBaseMult sk) priv)).take 32 = (P.ScalarBaseMult priv).val := by
    rw [List.take_append_of_le_length (by omega)]
    exact List.take_of_length_le (by omega)
  have hdrop : ((P.ScalarBaseMult priv).val ++ secretboxSeal P [] message
      (sealNonce P (P.ScalarBaseMult priv) (P.ScalarBaseMult sk))
      (Precompute P (P.ScalarBaseMult sk) priv)).drop 32 = secretboxSeal P [] message
      (sealNonce P (P.ScalarBaseMult priv) (P.ScalarBaseMult sk))
      (Precompute P (P.ScalarBaseMult sk) priv) := by
    rw [List.drop_append_of_le_length (by omega), List.drop_of_length_le (by omega)]
    rfl
  rw [htake, hdrop, Bytes.copy_self]
  have hpre : Precompute P (P.ScalarBaseMult priv) sk = Precompute P (P.ScalarBaseMult sk) priv := by
    simp only [Precompute, hDH sk priv]
  simp only [Open, hpre]
  exact secretboxOpen_secretboxSeal P message _ _

end box

theorem Byte.xor_left_comm (a b c : Byte) : a ^^^ (b ^^^ c) = b ^^^ (a ^^^ c) := by
  apply Fin.ext
  have ha := a.isLt
  have hb := b.isLt
  have hc := c.isLt
  have h1 : b.val ^^^ c.val < 256 := Nat.xor_lt_two_pow (n := 8) hb hc
  have h2 : a.val ^^^ c.val < 256 := Nat.xor_lt_two_pow (n := 8) ha hc
  show (a.val ^^^ ((b.val ^^^ c.val) % 256)) % 256 = (b.val ^^^ ((a.val ^^^ c.val) % 256)) % 256
  rw [Nat.mod_eq_of_lt h1, Nat.mod_eq_of_lt h2, ← Nat.xor_assoc, ← Nat.xor_assoc,
    Nat.xor_comm a.val b.val]

theorem zipWith_xor_left_comm : ∀ a b c : List Byte,
    List.zipWith (fun x y => x ^^^ y) a (List.zipWith (fun x y => x ^^^ y) b c) =
      List.zipWith (fun x y => x ^^^ y) b (List.zipWith (fun x y => x ^^^ y) a c)
  | [], b, c => by cases b <;> simp
  | _ :: _, [], _ => by simp
  | _ :: _, _ :: _, [] => by simp
  | x :: a, y :: b, z :: c => by
      simp only [List.zipWith_cons_cons, List.cons.injEq]
      exact ⟨Byte.xor_left_comm x y z, zipWith_xor_left_comm a b c⟩

/-- The two sides of an exchange agree for the stand-in primitives. -/
theorem box.testPrimitives_exchange (a b : Bytes 32) :
    box.testPrimitives.ScalarMult a (box.testPrimitives.ScalarBaseMult b) =
      box.testPrimitives.ScalarMult b (box.testPrimitives.ScalarBaseMult a) := by
  apply Bytes.ext
  exact zipWith_xor_left_comm a.val b.val box.basePoint.val

theorem sealedBoxCiphertext_length (P : box.Primitives) (recipient ephemeralPriv : Bytes 32)
    (message : List Byte) :
    (box.sealedBoxCiphertext P recipient ephemeralPriv message).length = message.length := by
  simp only [box.sealedBoxCiphertext, box.sealedBoxKeyStream, List.length_zipWith,
    List.length_append, List.length_map, List.length_range']
  omega

set_option maxRecDepth 100000 in
/-- Claim C6 fails as stated: the layout is not ephemeral public key, ciphertext, tag. With
the stand-in primitives, the entropy of 32 bytes 7, the zero private key of the recipient and
the secret `value`, `Encrypt` succeeds and `Raw` is the ephemeral public key, then the tag,
then the ciphertext; it differs from the key followed by the ciphertext and the tag, its last
16 bytes are not the tag, and the 5 bytes after the key are not the ciphertext. -/
theorem sealed_box_tag_precedes_ciphertext :
    (Encrypt box.testPrimitives (List.replicate 32 7)
        (EncodeToString (box.testPrimitives.ScalarBaseMult (Bytes.zero 32)).val)
        (goString "value")).1.Err = none ∧
      (Encrypt box.testPrimitives (List.replicate 32 7)
        (EncodeToString (box.testPrimitives.ScalarBaseMult (Bytes.zero 32)).val)
        (goString "value")).1.Raw =
        (box.testPrimitives.ScalarBaseMult ((Bytes.zero 32).copy (List.replicate 32 7))).val ++
          (box.sealedBoxTag box.testPrimitives (box.testPrimitives.ScalarBaseMult (Bytes.zero 32))
            ((Bytes.zero 32).copy (List.replicate 32 7)) (goString "value")).val ++
          box.sealedBoxCiphertext box.testPrimitives
            (box.testPrimitives.ScalarBaseMult (Bytes.zero 32))
            ((Bytes.zero 32).copy (List.replicate 32 7)) (goString "value") ∧
      (Encrypt box.testPrimitives (List.replicate 32 7)
        (EncodeToString (box.testPrimitives.ScalarBaseMult (Bytes.zero 32)).val)
        (goString "value")).1.Raw ≠
        (box.testPrimitives.ScalarBaseMult ((Bytes.zero 32).copy (List.replicate 32 7))).val ++
          box.sealedBoxCiphertext box.testPrimitives
            (box.testPrimitives.ScalarBaseMult (Bytes.zero 32))
            ((Bytes.zero 32).copy (List.replicate 32 7)) (goString "value") ++
          (box.sealedBoxTag box.testPrimitives (box.testPrimitives.ScalarBaseMult (Bytes.zero 32))
            ((Bytes.zero 32).copy (List.replicate 32 7)) (goString "value")).val ∧
      (Encrypt box.testPrimitives (List.replicate 32 7)
        (EncodeToString (box.testPrimitives.ScalarBaseMult (Bytes.zero 32)).val)
        (goString "value")).1.Raw.drop (32 + 5) ≠
        (box.sealedBoxTag box.testPrimitives (box.testPrimitives.ScalarBaseMult (Bytes.zero 32))
          ((Bytes.zero 32).copy (List.replicate 32 7)) (goString "value")).val ∧
      ((Encrypt box.testPrimitives (List.replicate 32 7)
        (EncodeToString (box.testPrimitives.ScalarBaseMult (Bytes.zero 32)).val)
        (goString "value")).1.Raw.drop 32).take 5 ≠
        box.sealedBoxCiphertext box.testPrimitives
          (box.testPrimitives.ScalarBaseMult (Bytes.zero 32))
          ((Bytes.zero 32).copy (List.replicate 32 7)) (goString "value") := by
  decide

/-- Claim C6, as the code has it: for a recipient key pair (the public key is the base point
times the private key) and any secret, if `Encrypt` succeeds on the base64 of the public key,
then opening `Raw` as a sealed box with that key pair gives exactly the secret, and `Raw` is
the 32-byte ephemeral public key, followed by the 16-byte tag, followed by the ciphertext,
which is as long as the secret. The ephemeral private key is the first 32 bytes of the random
source; tag and ciphertext are those of the sealed-box format over the primitives. The
Diffie-Hellman agreement of the curve primitive is a hypothesis. -/
theorem open_anonymous_recovers_secret (P : box.Primitives)
    (hDH : ∀ a b : Bytes 32,
      P.ScalarMult a (P.ScalarBaseMult b) = P.ScalarMult b (P.ScalarBaseMult a))
    (rand : io.Reader) (sk : Bytes 32) (secret : List Byte)
    (hok : (Encrypt P rand (EncodeToString (P.ScalarBaseMult sk).val) secret).1.Err = none) :
    box.OpenAnonymous P [] (Encrypt P rand (EncodeToString (P.ScalarBaseMult sk).val) secret).1.Raw
        (P.ScalarBaseMult sk) sk = some secret ∧
      ∃ priv : Bytes 32,
        priv.val = rand.take 32 ∧
        (Encrypt P rand (EncodeToString (P.ScalarBaseMult sk).val) secret).1.Raw =
          (P.ScalarBaseMult priv).val ++
            (box.sealedBoxTag P (P.ScalarBaseMult sk) priv secret).val ++
            box.sealedBoxCiphertext P (P.ScalarBaseMult sk) priv secret ∧
        (box.sealedBoxCiphertext P (P.ScalarBaseMult sk) priv secret).length =
          secret.length := by
  have hd := DecodeString_EncodeToString (P.ScalarBaseMult sk).val
  have hpk := (P.ScalarBaseMult sk).property
  have hcopy : (Bytes.zero 32).copy ((P.ScalarBaseMult sk).val.take 32) = P.ScalarBaseMult sk := by
    rw [List.take_of_length_le (by omega)]
    exact Bytes.copy_self _ _
  rcases hr : io.ReadFull32 rand with ⟨e | priv, r1⟩
  · rw [Encrypt_seal_error P rand r1 _ secret _ e hd (by omega) hr] at hok
    simp at hok
  · rw [Encrypt_sealed P rand r1 _ secret _ priv hd (by omega) hr, hcopy]
    exact ⟨box.OpenAnonymous_Seal P hDH secret sk priv, priv,
      (io.ReadFull32_ok rand r1 priv hr).2.1,
      box.Seal_eq_sealedBox P secret (P.ScalarBaseMult sk) priv,
      sealedBoxCiphertext_length P (P.ScalarBaseMult sk) priv secret⟩

/-- Claim C6 as amended, at the stand-in primitives, the zero private key and the secret `value`. -/
theorem open_anonymous_recovers_secret_witness :
    (∀ a b : Bytes 32,
      box.testPrimitives.ScalarMult a (box.testPrimitives.ScalarBaseMult b) =
        box.testPrimitives.ScalarMult b (box.testPrimitives.ScalarBaseMult a)) ∧
    (Encrypt box.testPrimitives (List.replicate 32 7)
      (EncodeToString (box.testPrimitives.ScalarBaseMult (Bytes.zero 32)).val)
      (goString "value")).1.Err = none ∧
    box.OpenAnonymous box.testPrimitives []
        (Encrypt box.testPrimitives (List.replicate 32 7)
          (EncodeToString (box.testPrimitives.ScalarBaseMult (Bytes.zero 32)).val)
          (goString "value")).1.Raw
        (box.testPrimitives.ScalarBaseMult (Bytes.zero 32)) (Bytes.zero 32) =
      some (goString "value") ∧
    ∃ priv : Bytes 32,
      priv.val = (List.replicate 32 (7 : Byte)).take 32 ∧
      (Encrypt box.testPrimitives (List.replicate 32 7)
        (EncodeToString (box.testPrimitives.ScalarBaseMult (Bytes.zero 32)).val)
        (goString "value")).1.Raw =
        (box.testPrimitives.ScalarBaseMult priv).val ++
          (box.sealedBoxTag box.testPrimitives
            (box.testPrimitives.ScalarBaseMult (Bytes.zero 32)) priv (goString "value")).val ++
          box.sealedBoxCiphertext box.testPrimitives
            (box.testPrimitives.ScalarBaseMult (Bytes.zero 32)) priv (goString "value") ∧
      (box.sealedBoxCiphertext box.testPrimitives
        (box.testPrimitives.ScalarBaseMult (Bytes.zero 32)) priv (goString "value")).length =
        (goString "value").length :=
  ⟨box.testPrimitives_exchange, by decide,
    open_anonymous_recovers_secret box.testPrimitives box.testPrimitives_exchange
      (List.replicate 32 7) (Bytes.zero 32) (goString "value") (by decide)⟩

namespace provider

theorem SetDefaults_known (m : EncryptDataSourceModel) (v : List Byte)
    (hv : m.Value = .known v) :
    m.SetDefaults =
      ({ m with
          ValueBase64 := .known (EncodeToString v)
          Base64Encode :=
            if m.Base64Encode.IsNull || m.Base64Encode.IsUnknown then .known false
            else m.Base64Encode }, none) := by
  simp only [EncryptDataSourceModel.SetDefaults, hv, types.String.IsNull,
    types.String.IsUnknown, types.String.ValueString, types.StringValue, types.BoolValue]
  cases m.Base64Encode <;> simp [types.Bool.IsNull, types.Bool.IsUnknown]

theorem SetDefaults_absent_ok (m : EncryptDataSourceModel)
    (hv : m.Value = .null ∨ m.Value = .unknown) (bs : List Byte)
    (hd : DecodeString m.ValueBase64.ValueString = (bs, none)) :
    m.SetDefaults =
      ({ m with
          Value := .known bs
          Base64Encode :=
            if m.Base64Encode.IsNull || m.Base64Encode.IsUnknown then .known false
            else m.Base64Encode }, none) := by
  rcases hv with hv | hv <;>
  · simp only [EncryptDataSourceModel.SetDefaults, hv, types.String.IsNull,
      types.String.IsUnknown, types.StringValue, types.BoolValue, hd]
    cases m.Base64Encode <;> simp [types.Bool.IsNull, types.Bool.IsUnknown]

theorem SetDefaults_absent_error (m : EncryptDataSourceModel)
    (hv : m.Value = .null ∨ m.Value = .unknown) (bs : List Byte) (e : CorruptInputError)
    (hd : DecodeString m.ValueBase64.ValueString = (bs, some e)) :
    m.SetDefaults = (m, some (.decodeValueBase64 e)) := by
  rcases hv with hv | hv <;>
  simp [EncryptDataSourceModel.SetDefaults, hv, types.String.IsNull,
      types.String.IsUnknown, hd]

end provider

/-- Claim C7: for a model whose value is known, `SetDefaults` returns no error, sets
`value_base64` to the standard padded base64 of the bytes of `value` (whatever it held), and
leaves `value`, `public_key_base64`, `id`, `encrypted` and `encrypted_base64` as they were. -/
theorem setDefaults_known_value (m : EncryptDataSourceModel) (v : List Byte)
    (hv : m.Value = .known v) :
    m.SetDefaults.2 = none ∧
      m.SetDefaults.1.ValueBase64 = .known (EncodeToString v) ∧
      m.SetDefaults.1.Value = m.Value ∧
      m.SetDefaults.1.PublicKeyBase64 = m.PublicKeyBase64 ∧
      m.SetDefaults.1.Id = m.Id ∧
      m.SetDefaults.1.Encrypted = m.Encrypted ∧
      m.SetDefaults.1.EncryptedBase64 = m.EncryptedBase64 := by
  rw [SetDefaults_known m v hv]
  exact ⟨rfl, rfl, rfl, rfl, rfl, rfl, rfl⟩

/-- Claim C7 at the value `value`: `value_base64` becomes `dmFsdWU=`. -/
theorem setDefaults_known_value_witness :
    (⟨.null, .known (goString "key"), .known (goString "value"), .known (goString "old"),
        .unknown, .unknown, .null⟩ : EncryptDataSourceModel).Value =
      .known (goString "value") ∧
    (⟨.null, .known (goString "key"), .known (goString "value"), .known (goString "old"),
        .unknown, .unknown, .null⟩ : EncryptDataSourceModel).SetDefaults.2 = none ∧
    (⟨.null, .known (goString "key"), .known (goString "value"), .known (goString "old"),
        .unknown, .unknown, .null⟩ : EncryptDataSourceModel).SetDefaults.1.ValueBase64 =
      .known (goString "dmFsdWU=") :=
  ⟨rfl,
    (setDefaults_known_value ⟨.null, .known (goString "key"), .known (goString "value"),
      .known (goString "old"), .unknown, .unknown, .null⟩ (goString "value") rfl).1,
    ((setDefaults_known_value ⟨.null, .known (goString "key"), .known (goString "value"),
      .known (goString "old"), .unknown, .unknown, .null⟩ (goString "value") rfl).2.1).trans
      (by decide)⟩

/-- Claim C8: for a model whose value is null or unknown, `SetDefaults` decodes
`value_base64`: when that decodes without error, `SetDefaults` returns no error, sets `value`
to exactly the decoded bytes and leaves `value_base64` as it was; when it does not decode,
`SetDefaults` returns the error "unable to decode `value_base64`, got error: ...". -/
theorem setDefaults_value_from_base64 (m : EncryptDataSourceModel)
    (hv : m.Value = .null ∨ m.Value = .unknown) :
    (∀ bs, DecodeString m.ValueBase64.ValueString = (bs, none) →
      m.SetDefaults.2 = none ∧ m.SetDefaults.1.Value = .known bs ∧
        m.SetDefaults.1.ValueBase64 = m.ValueBase64) ∧
    (∀ bs e, DecodeString m.ValueBase64.ValueString = (bs, some e) →
      m.SetDefaults.2 = some (.decodeValueBase64 e) ∧
        provider.Error.Error (.decodeValueBase64 e) =
          "unable to decode `value_base64`, got error: " ++ CorruptInputError.Error e) := by
  constructor
  · intro bs hd
    rw [SetDefaults_absent_ok m hv bs hd]
    exact ⟨rfl, rfl, rfl⟩
  · intro bs e hd
    rw [SetDefaults_absent_error m hv bs e hd]
    exact ⟨rfl, rfl⟩

/-- Claim C8 at `value_base64` equal to `dmFsdWU=`: `value` becomes `value`. -/
theorem setDefaults_value_from_base64_witness :
    ((⟨.null, .known (goString "key"), .null, .known (goString "dmFsdWU="),
        .unknown, .unknown, .null⟩ : EncryptDataSourceModel).Value = .null ∨
      (⟨.null, .known (goString "key"), .null, .known (goString "dmFsdWU="),
        .unknown, .unknown, .null⟩ : EncryptDataSourceModel).Value = .unknown) ∧
    (⟨.null, .known (goString "key"), .null, .known (goString "dmFsdWU="),
        .unknown, .unknown, .null⟩ : EncryptDataSourceModel).SetDefaults.2 = none ∧
    (⟨.null, .known (goString "key"), .null, .known (goString "dmFsdWU="),
        .unknown, .unknown, .null⟩ : EncryptDataSourceModel).SetDefaults.1.Value =
      .known (goString "value") ∧
    (⟨.null, .known (goString "key"), .null, .known (goString "dmFsdWU="),
        .unknown, .unknown, .null⟩ : EncryptDataSourceModel).SetDefaults.1.ValueBase64 =
      .known (goString "dmFsdWU=") :=
  ⟨Or.inl rfl,
    (setDefaults_value_from_base64 ⟨.null, .known (goString "key"), .null,
      .known (goString "dmFsdWU="), .unknown, .unknown, .null⟩ (Or.inl rfl)).1
      (goString "value") (by decide)⟩

/-- Claim C9: `base64_encode` defaults to false and selects the plaintext. When `SetDefaults`
succeeds and leaves the model `d`, it has set a null or unknown `base64_encode` to false and
left a known one as it was, and `Encrypt` of `d` passes to `encryption.Encrypt` the public
key text and, as the secret, the text of `value_base64` exactly when `base64_encode` was known
and true, and the bytes of `value` otherwise; on success the id is the hex form of SHA-256
over the public key text, a dot and that secret. -/
theorem base64_encode_selects_plaintext (P : box.Primitives) (Sum256 : List Byte → Bytes 32)
    (rand : io.Reader) (m d : EncryptDataSourceModel) (secret : List Byte)
    (hd : m.SetDefaults = (d, none))
    (hs : secret = if m.Base64Encode = .known true then d.ValueBase64.ValueString
      else d.Value.ValueString) :
    d.Base64Encode =
        (if m.Base64Encode = .null ∨ m.Base64Encode = .unknown then .known false
          else m.Base64Encode) ∧
      d.PublicKeyBase64 = m.PublicKeyBase64 ∧
      (∀ err, (encryption.Encrypt P rand m.PublicKeyBase64.ValueString secret).1.Err =
          some err →
        d.Encrypt P Sum256 rand = ((d, some (.encrypt err)),
          (encryption.Encrypt P rand m.PublicKeyBase64.ValueString secret).2)) ∧
      ((encryption.Encrypt P rand m.PublicKeyBase64.ValueString secret).1.Err = none →
        d.Encrypt P Sum256 rand =
          (({ d with
              EncryptedBase64 := .known
                (encryption.Encrypt P rand m.PublicKeyBase64.ValueString secret).1.Encoded
              Encrypted := .known
                (encryption.Encrypt P rand m.PublicKeyBase64.ValueString secret).1.Raw
              Id := .known (hex.EncodeToString
                (Sum256 (m.PublicKeyBase64.ValueString ++ goString "." ++ secret)).val) },
            none),
            (encryption.Encrypt P rand m.PublicKeyBase64.ValueString secret).2)) := by
  have hflag : d.Base64Encode =
      (if m.Base64Encode = .null ∨ m.Base64Encode = .unknown then .known false
        else m.Base64Encode) ∧ d.PublicKeyBase64 = m.PublicKeyBase64 := by
    rcases hv : m.Value with _ | _ | v
    · rcases hdec : DecodeString m.ValueBase64.ValueString with ⟨bs, _ | e⟩
      · rw [SetDefaults_absent_ok m (Or.inl hv) bs hdec] at hd
        simp only [Prod.mk.injEq, and_true] at hd
        subst hd
        cases m.Base64Encode <;> simp [types.Bool.IsNull, types.Bool.IsUnknown]
      · rw [SetDefaults_absent_error m (Or.inl hv) bs e hdec] at hd
        simp at hd
    · rcases hdec : DecodeString m.ValueBase64.ValueString with ⟨bs, _ | e⟩
      · rw [SetDefaults_absent_ok m (Or.inr hv) bs hdec] at hd
        simp only [Prod.mk.injEq, and_true] at hd
        subst hd
        cases m.Base64Encode <;> simp [types.Bool.IsNull, types.Bool.IsUnknown]
      · rw [SetDefaults_absent_error m (Or.inr hv) bs e hdec] at hd
        simp at hd
    · rw [SetDefaults_known m v hv] at hd
      simp only [Prod.mk.injEq, and_true] at hd
      subst hd
      cases m.Base64Encode <;> simp [types.Bool.IsNull, types.Bool.IsUnknown]
  have hsel : secret = if d.Base64Encode.ValueBool then d.ValueBase64.ValueString
      else d.Value.ValueString := by
    rw [hs, hflag.1]
    rcases hb : m.Base64Encode with _ | _ | b
    · simp [types.Bool.ValueBool]
    · simp [types.Bool.ValueBool]
    · cases b <;> simp [types.Bool.ValueBool]
  refine ⟨hflag.1, hflag.2, ?_, ?_⟩
  · intro err herr
    simp only [EncryptDataSourceModel.Encrypt, ← hsel, hflag.2, herr]
  · intro hnone
    simp only [EncryptDataSourceModel.Encrypt, ← hsel, hflag.2, hnone, types.StringValue]

set_option maxRecDepth 100000 in
/-- Claim C9 at a model with `base64_encode` true: what is sealed is the text `dmFsdWU=`. -/
theorem base64_encode_selects_plaintext_witness :
    (⟨.null, .known (EncodeToString (List.replicate 32 0)), .known (goString "value"), .null,
        .null, .null, .known true⟩ : EncryptDataSourceModel).SetDefaults =
      (⟨.null, .known (EncodeToString (List.replicate 32 0)), .known (goString "value"),
        .known (goString "dmFsdWU="), .null, .null, .known true⟩, none) ∧
    (provider.EncryptDataSourceModel.Encrypt box.testPrimitives (fun _ => Bytes.zero 32)
      (List.replicate 32 7)
      ⟨.null, .known (EncodeToString (List.replicate 32 0)), .known (goString "value"),
        .known (goString "dmFsdWU="), .null, .null, .known true⟩).1.1.Encrypted =
      .known (encryption.Encrypt box.testPrimitives (List.replicate 32 7)
        (EncodeToString (List.replicate 32 0)) (goString "dmFsdWU=")).1.Raw :=
  ⟨by decide,
    congrArg (fun r => r.1.1.Encrypted)
      ((base64_encode_selects_plaintext box.testPrimitives (fun _ => Bytes.zero 32)
        (List.replicate 32 7)
        ⟨.null, .known (EncodeToString (List.replicate 32 0)), .known (goString "value"), .null,
          .null, .null, .known true⟩
        ⟨.null, .known (EncodeToString (List.replicate 32 0)), .known (goString "value"),
          .known (goString "dmFsdWU="), .null, .null, .known true⟩
        (goString "dmFsdWU=") (by decide) (by decide)).2.2.2 (by decide))⟩

/-- Claim C10 fails as stated: with `value` null and `value_base64` the text `dmFsdWV=`
(which decodes to `value`, whose standard encoding is `dmFsdWU=`), `SetDefaults` succeeds, and
a second `SetDefaults` changes `value_base64`. -/
theorem setDefaults_twice_changes_value_base64 :
    (⟨.null, .known (goString "key"), .null, .known (goString "dmFsdWV="), .null, .null,
        .null⟩ : EncryptDataSourceModel).SetDefaults.2 = none ∧
      (⟨.null, .known (goString "key"), .null, .known (goString "dmFsdWV="), .null, .null,
        .null⟩ : EncryptDataSourceModel).SetDefaults.1.ValueBase64 =
        .known (goString "dmFsdWV=") ∧
      (⟨.null, .known (goString "key"), .null, .known (goString "dmFsdWV="), .null, .null,
        .null⟩ : EncryptDataSourceModel).SetDefaults.1.SetDefaults.1.ValueBase64 =
        .known (goString "dmFsdWU=") := by
  decide

/-- Claim C10, as the code has it: when `SetDefaults` succeeds, a second `SetDefaults` also
succeeds, leaves `value` and `base64_encode` exactly as the first left them, and sets
`value_base64` to the standard encoding of `value`; that is what the first application left
when `value` was known before it, or when `value_base64` already held that encoding. -/
theorem setDefaults_twice (m : EncryptDataSourceModel) (hok : m.SetDefaults.2 = none) :
    m.SetDefaults.1.SetDefaults.2 = none ∧
      m.SetDefaults.1.SetDefaults.1.Value = m.SetDefaults.1.Value ∧
      m.SetDefaults.1.SetDefaults.1.Base64Encode = m.SetDefaults.1.Base64Encode ∧
      m.SetDefaults.1.SetDefaults.1.ValueBase64 =
        .known (EncodeToString m.SetDefaults.1.Value.ValueString) ∧
      ((∃ v, m.Value = .known v) ∨
          m.ValueBase64 = .known (EncodeToString m.SetDefaults.1.Value.ValueString) →
        m.SetDefaults.1.SetDefaults.1.ValueBase64 = m.SetDefaults.1.ValueBase64) := by
  have key : ∀ (m1 : EncryptDataSourceModel) (v : List Byte), m1.Value = .known v →
      (m1.Base64Encode = .known false ∨ m1.Base64Encode = .known true) →
      m1.SetDefaults = ({ m1 with ValueBase64 := .known (EncodeToString v) }, none) := by
    intro m1 v h1 hb
    rw [SetDefaults_known m1 v h1]
    rcases hb with hb | hb <;> simp [hb, types.Bool.IsNull, types.Bool.IsUnknown]
  have hflag : ∀ b : types.Bool,
      (if b.IsNull || b.IsUnknown then types.Bool.known false else b) = .known false ∨
      (if b.IsNull || b.IsUnknown then types.Bool.known false else b) = .known true := by
    intro b
    rcases b with _ | _ | b
    · simp [types.Bool.IsNull, types.Bool.IsUnknown]
    · simp [types.Bool.IsNull, types.Bool.IsUnknown]
    · cases b <;> simp [types.Bool.IsNull, types.Bool.IsUnknown]
  have hcase : (m.Value = .null ∨ m.Value = .unknown) ∨ ∃ v, m.Value = .known v := by
    rcases m.Value with _ | _ | v
    · exact Or.inl (Or.inl rfl)
    · exact Or.inl (Or.inr rfl)
    · exact Or.inr ⟨v, rfl⟩
  rcases hcase with hv | ⟨v, hv⟩
  · rcases hdec : DecodeString m.ValueBase64.ValueString with ⟨bs, _ | e⟩
    · have h1 := SetDefaults_absent_ok m hv bs hdec
      rw [h1]
      rw [key _ bs rfl (hflag _)]
      refine ⟨rfl, rfl, rfl, rfl, ?_⟩
      rintro (⟨v, hv'⟩ | hcanon)
      · rcases hv with hv | hv <;> rw [hv] at hv' <;> cases hv'
      · exact hcanon.symm
    · rw [SetDefaults_absent_error m hv bs e hdec] at hok
      simp at hok
  · have h1 := SetDefaults_known m v hv
    have hm1v : m.SetDefaults.1.Value = .known v := by rw [h1]; exact hv
    have hm1b : m.SetDefaults.1.Base64Encode = .known false ∨
        m.SetDefaults.1.Base64Encode = .known true := by rw [h1]; exact hflag _
    have hm1vb : m.SetDefaults.1.ValueBase64 = .known (EncodeToString v) := by rw [h1]
    rw [key m.SetDefaults.1 v hm1v hm1b]
    refine ⟨rfl, rfl, rfl, ?_, fun _ => hm1vb.symm⟩
    simp [hm1v, types.String.ValueString]

/-- Claim C10 as amended, at `value_base64` equal to `dmFsdWU=`. -/
theorem setDefaults_twice_witness :
    (⟨.null, .known (goString "key"), .null, .known (goString "dmFsdWU="), .null, .null,
        .null⟩ : EncryptDataSourceModel).SetDefaults.2 = none ∧
      (⟨.null, .known (goString "key"), .null, .known (goString "dmFsdWU="), .null, .null,
        .null⟩ : EncryptDataSourceModel).SetDefaults.1.SetDefaults.2 = none ∧
      (⟨.null, .known (goString "key"), .null, .known (goString "dmFsdWU="), .null, .null,
        .null⟩ : EncryptDataSourceModel).SetDefaults.1.SetDefaults.1.Value =
      (⟨.null, .known (goString "key"), .null, .known (goString "dmFsdWU="), .null, .null,
        .null⟩ : EncryptDataSourceModel).SetDefaults.1.Value :=
  ⟨by decide,
    (setDefaults_twice ⟨.null, .known (goString "key"), .null, .known (goString "dmFsdWU="),
      .null, .null, .null⟩ (by decide)).1,
    (setDefaults_twice ⟨.null, .known (goString "key"), .null, .known (goString "dmFsdWU="),
      .null, .null, .null⟩ (by decide)).2.1⟩
